import Mathlib

/-!
# Spaceship dodging game: a shallow embedding of `src/main.cpp`

The C++ program is embedded as pure Lean functions over explicit state.

Conventions of the embedding:

* `int` is modelled by `Int`.  Signed overflow is undefined behaviour in C++,
  so the program has a meaning only on runs without it; on those runs the
  arithmetic of `Int` is exact.  `/` and `%` on `int` truncate toward zero and
  are modelled by `Int.tdiv` and `Int.tmod`.
* `size_t` indices are modelled by `Nat`.  `moveRockDown` receives the index as
  an `int` and hands it back to `removeRock` as a `size_t`; this round trip is
  the identity for collections of fewer than `2^31` elements, which is assumed.
* `std::vector<T>` is modelled by `List T`; `at(i)` by `xs[i]?` (with `none`
  standing for the `std::out_of_range` exception), `erase(begin() + i)` by
  `List.eraseIdx`, `push_back` by appending a singleton.
* `std::vector<Rock*>` holds pointers that are created by `new` inside
  `updateScreen` and pushed exactly once, so no two entries alias; the
  collection is modelled by the list of the pointed-to values.
* The calls into ncurses (`mvaddch`, `refresh`, `clear`) only write to the
  terminal, which the program never reads back; they are not part of the
  state modelled in the game-logic section.  What `Ship::draw` and
  `Ship::clear` write is modelled on its own, in the section on the display
  surface.
* In `Ship::draw` and `Ship::clear` the `unsigned int` loop counters are added
  to the `int` coordinates; the sum is formed modulo `2^32` and converted back
  to `int` for `mvaddch`.  It is modelled by the sum in `Int`, which is exact
  whenever the cell coordinates fit in an `int`.
-/

namespace Spaceship

/-! ## Failure modes -/

/-- The ways a call can fail: `std::out_of_range` thrown by `vector::at`,
and the integer division by zero of `rand() % boundary.getWidth()`. -/
inductive Error where
  | outOfRange
  | divisionByZero
  deriving DecidableEq, Repr

deriving instance DecidableEq for Except

/-- Outcome of a call that mutates a state of type `σ`.  `done s` is a normal
return with final state `s`; `raised e s` is a failure `e` with `s` the state
at the moment of the failure; `outOfFuel` is reported by a loop of the model
whose iteration bound was used up (never by the program itself). -/
inductive Outcome (σ : Type) where
  | done (s : σ)
  | raised (e : Error) (s : σ)
  | outOfFuel
  deriving DecidableEq, Repr

/-! ## Geometry primitives (`main.cpp` lines 17-83) -/

/-- The C++ `Position<int>`: a pair of `int` coordinates. -/
structure Position where
  x : Int
  y : Int
  deriving DecidableEq, Repr

namespace Position

/-- The C++ `Position::getX`. -/
def getX (p : Position) : Int := p.x

/-- The C++ `Position::getY`. -/
def getY (p : Position) : Int := p.y

/-- The C++ `Position::setX`. -/
def setX (p : Position) (x : Int) : Position := { p with x := x }

/-- The C++ `Position::setY`. -/
def setY (p : Position) (y : Int) : Position := { p with y := y }

/-- The C++ `Position::operator==` (lines 37-40). -/
def eq (a p : Position) : Bool := a.x == p.getX && a.y == p.getY

/-- The C++ `Position::operator+` (lines 42-45). -/
def add (a p : Position) : Position := ⟨a.x + p.getX, a.y + p.getY⟩

/-- The C++ `Position::operator-` (lines 47-50). -/
def sub (a p : Position) : Position := ⟨a.x - p.getX, a.y - p.getY⟩

end Position

/-- The C++ `Boundary`: the four `int` edges of a rectangle (lines 52-68). -/
structure Boundary where
  top : Int
  bottom : Int
  left : Int
  right : Int
  deriving DecidableEq, Repr

namespace Boundary

/-- The C++ `Boundary::getWidth` (lines 70-72). -/
def getWidth (b : Boundary) : Int := b.right - b.left

/-- The C++ `Boundary::getHeight` (lines 74-76). -/
def getHeight (b : Boundary) : Int := b.bottom - b.top

/-- The C++ `Boundary::isInside` (lines 78-83). -/
def isInside (b : Boundary) (sprite_pos : Position) : Bool :=
  decide (sprite_pos.getX ≥ b.left)
    && decide (sprite_pos.getX ≤ b.right)
    && decide (sprite_pos.getY ≤ b.bottom)
    && decide (sprite_pos.getY ≥ b.top)

end Boundary

/-! ## Sprites (`main.cpp` lines 95-174) -/

/-- The C++ `Ship`: a body of rows of characters anchored at a position. -/
structure Ship where
  body : List (List Char)
  pos : Position
  deriving DecidableEq, Repr

namespace Ship

/-- The C++ `Ship::getPosition` (lines 139-141). -/
def getPosition (s : Ship) : Position := s.pos

/-- The C++ `Ship::moveRight` (lines 143-145). -/
def moveRight (s : Ship) (amount : Int) : Ship :=
  { s with pos := s.pos.setX (s.pos.getX + amount) }

/-- The C++ `Ship::moveLeft` (lines 147-149). -/
def moveLeft (s : Ship) (amount : Int) : Ship :=
  { s with pos := s.pos.setX (s.pos.getX - amount) }

/-- The C++ `Ship::getWidth` (lines 151-153): `body.at(0).size()`, which throws
`std::out_of_range` when the body has no row. -/
def getWidth (s : Ship) : Except Error Int :=
  match s.body[0]? with
  | none => .error .outOfRange
  | some row => .ok (row.length : Int)

/-- The C++ `Ship::getHeight` (lines 155-157). -/
def getHeight (s : Ship) : Int := (s.body.length : Int)

end Ship

/-- The C++ `Rock`: a `Ship` that can also move down (lines 160-165). -/
structure Rock extends Ship where
  deriving DecidableEq, Repr

namespace Rock

/-- The C++ `Rock::getPosition`, inherited from `Ship`. -/
def getPosition (r : Rock) : Position := r.toShip.getPosition

/-- The C++ `Rock::moveDown` (lines 167-169). -/
def moveDown (r : Rock) (amount : Int) : Rock :=
  { r with pos := r.pos.setY (r.pos.getY + amount) }

end Rock

/-! ## The rock manager (`main.cpp` lines 176-237) -/

/-- The C++ `RockManager`: a boundary and the collection of live rocks. -/
structure RockManager where
  boundary : Boundary
  active_rocks : List Rock
  deriving DecidableEq, Repr

namespace RockManager

/-- The C++ `RockManager::getRocks` (lines 190-192). -/
def getRocks (m : RockManager) : List Rock := m.active_rocks

/-- The C++ `RockManager::getBoundary` (lines 194-196). -/
def getBoundary (m : RockManager) : Boundary := m.boundary

/-- The C++ `RockManager::removeRock` (lines 198-202): `active_rocks.at(i)` throws
before anything is deleted; otherwise the rock is deleted and its slot erased. -/
def removeRock (m : RockManager) (i : Nat) : Outcome RockManager :=
  match m.active_rocks[i]? with
  | none => .raised .outOfRange m
  | some _ => .done { m with active_rocks := m.active_rocks.eraseIdx i }

/-- The C++ `moveRockDown` (lines 213-219).  The pointer `rock` is the entry `i` of the
collection (that is how `updateScreen` calls it), so `rock->moveDown(1)`
updates that entry in place. -/
def moveRockDown (rock_manager : RockManager) (rock : Rock) (i : Nat) :
    Outcome RockManager :=
  if rock_manager.getBoundary.isInside rock.getPosition then
    .done { rock_manager with
      active_rocks := rock_manager.active_rocks.set i (rock.moveDown 1) }
  else
    rock_manager.removeRock i

/-- The `for` loop of `RockManager::updateScreen` (lines 226-228), started at
index `i`: each iteration re-reads `active_rocks.size()`, fetches
`active_rocks.at(i)`, calls `moveRockDown` and increments `i`.  The first
argument bounds the number of times the loop condition is evaluated. -/
def updateLoop : Nat → Nat → RockManager → Outcome RockManager
  | 0, _, _ => .outOfFuel
  | fuel + 1, i, m =>
    if i < m.active_rocks.length then
      match m.active_rocks[i]? with
      | none => .raised .outOfRange m
      | some rock =>
        match moveRockDown m rock i with
        | .done m' => updateLoop fuel (i + 1) m'
        | other => other
    else
      .done m

/-- The C++ `RockManager::updateScreen` (lines 221-237).  `rand` is the value returned
by the call of `rand()`, a number between `0` and `RAND_MAX`.  The two
`for_each` passes (lines 224 and 236) only write to the terminal.  The loop
condition is evaluated at most `size() + 1` times. -/
def updateScreen (m : RockManager) (rand : Nat) : Outcome RockManager :=
  match updateLoop (m.active_rocks.length + 1) 0 m with
  | .done m' =>
    if m'.boundary.getWidth = 0 then
      .raised .divisionByZero m'
    else
      let rock_body : List (List Char) := [['O']]
      let rock_pos : Position := ⟨Int.tmod (rand : Int) m'.boundary.getWidth, 0⟩
      .done { m' with active_rocks := m'.active_rocks ++ [⟨⟨rock_body, rock_pos⟩⟩] }
  | other => other

/-- Successive calls of `updateScreen`, one per element of `rands` (the value
`rand()` returns in that call), for as long as the calls return normally:
what the loop of `Game::run` does to its manager. -/
def runTicks : List Nat → RockManager → Outcome RockManager
  | [], m => .done m
  | rand :: rest, m =>
    match m.updateScreen rand with
    | .done m' => runTicks rest m'
    | other => other

end RockManager

/-- The tick as the specification words it: every rock, in collection order,
is dropped when its position is outside the boundary and moved down by one
cell when it is inside; one new rock is then appended.  This definition
follows the specification, not the source; it is what `updateScreen` is
compared with. -/
def updateScreenSpec (m : RockManager) (rand : Nat) : List Rock :=
  m.active_rocks.filterMap
      (fun rock => if m.boundary.isInside rock.getPosition then some (rock.moveDown 1) else none)
    ++ [⟨⟨[['O']], ⟨Int.tmod (rand : Int) m.boundary.getWidth, 0⟩⟩⟩]

/-! ## The game loop (`main.cpp` lines 239-376) -/

/-- The key code of `q`. -/
def KEY_Q : Int := 113

/-- The key code `KEY_LEFT` of `ncurses.h` (octal 0404). -/
def KEY_LEFT : Int := 260

/-- The key code `KEY_RIGHT` of `ncurses.h` (octal 0405). -/
def KEY_RIGHT : Int := 261

/-- The variables of `Game::run` that its loop reads or writes: the static
`score`, the local `game_area`, `rock_manager` and `ship`.  The field `ticks`
is a ghost variable, absent from the program: it records, in order, the value
of `score` at each invocation of `rock_manager.updateScreen()`. -/
structure GameState where
  score : Int
  game_area : Boundary
  rock_manager : RockManager
  ship : Ship
  ticks : List Int
  deriving DecidableEq, Repr

/-- How one iteration of the `while(1)` loop of `Game::run` ends: `running s`,
the iteration reached `usleep` and the loop goes on from `s`; `gameOver s`,
the iteration called `displayScore(game_area)` in state `s`, which never
returns (line 302); `raised e`, a failure left the loop; `outOfFuel`, an
iteration bound of the model was used up. -/
inductive FrameResult where
  | running (s : GameState)
  | gameOver (s : GameState)
  | raised (e : Error)
  | outOfFuel
  deriving DecidableEq, Repr

namespace Game

/-- The state of `Game::run` when it enters its loop (lines 305-324), for a
window of `bottom` rows and `right` columns as reported by `getmaxyx`;
`score` has its static initial value (line 264). -/
def initialState (bottom right : Int) : GameState :=
  let game_area : Boundary := ⟨0, bottom, 0, right⟩
  { score := 0
    game_area := game_area
    rock_manager := ⟨game_area, []⟩
    ship := ⟨[['*']], ⟨Int.tdiv right 2, bottom - 10⟩⟩
    ticks := [] }

/-- Lines 330-333 of `Game::run`: `if(score % 10 == 0) rock_manager.updateScreen()`
(the call of `displayScore()` that follows only writes to the terminal). -/
def tickStep (rand : Nat) (s : GameState) : Outcome GameState :=
  if Int.tmod s.score 10 = 0 then
    match s.rock_manager.updateScreen rand with
    | .done m => .done { s with rock_manager := m, ticks := s.ticks ++ [s.score] }
    | .raised e m => .raised e { s with rock_manager := m, ticks := s.ticks ++ [s.score] }
    | .outOfFuel => .outOfFuel
  else
    .done s

/-- The `switch` of `Game::run` (lines 337-349) on the flag `exit` and the ship. -/
def keyStep (keyboard_in : Int) (exit : Bool) (ship : Ship) : Bool × Ship :=
  if keyboard_in = KEY_Q then (true, ship)
  else if keyboard_in = KEY_LEFT then (exit, ship.moveLeft 2)
  else if keyboard_in = KEY_RIGHT then (exit, ship.moveRight 2)
  else (exit, ship)

/-- The successive values of `j` in a loop `for(int j=0; j<n; j++)`. -/
def forRange (n : Int) : List Int := (List.range n.toNat).map Int.ofNat

/-- The innermost two loops of the collision check (lines 357-366) for one
rock, with `width` and `height` the values of `ship.getWidth()` and
`ship.getHeight()`. -/
def collisionCells (rock : Rock) (ship : Ship) (width height : Int) (exit : Bool) : Bool :=
  (forRange width).foldl
    (fun exit j =>
      (forRange height).foldl
        (fun exit k =>
          let offset : Position := ⟨j, k⟩
          if rock.getPosition.eq (ship.getPosition.add offset) then true else exit)
        exit)
    exit

/-- The body of the loop over the rocks in the collision check (lines
356-367), for the index `i`.  `ship.getWidth()` is evaluated first, in the
condition of the loop over `j`, and may throw; `rocks.at(i)` is evaluated in
the innermost loop. -/
def collisionStep (rocks : List Rock) (ship : Ship) (exit : Bool) (i : Nat) :
    Except Error Bool :=
  match ship.getWidth with
  | .error e => .error e
  | .ok width =>
    match rocks[i]? with
    | none => .error .outOfRange
    | some rock => .ok (collisionCells rock ship width ship.getHeight exit)

/-- The collision check of `Game::run` (lines 356-367), from the value of the
flag `exit` before it to the value after it: the loop over the indices
`0 ≤ i < rocks.size()`. -/
def collisionCheck (rocks : List Rock) (ship : Ship) (exit : Bool) : Except Error Bool :=
  (List.range rocks.length).foldlM (collisionStep rocks ship) exit

/-- One iteration of the `while(1)` loop of `Game::run` (lines 326-375), for
the key `keyboard_in` returned by `wgetch` and the value `rand` that `rand()`
returns if it is called. -/
def frame (keyboard_in : Int) (rand : Nat) (s : GameState) : FrameResult :=
  match tickStep rand s with
  | .raised e _ => .raised e
  | .outOfFuel => .outOfFuel
  | .done s1 =>
    let moved := keyStep keyboard_in false s1.ship
    let rocks := s1.rock_manager.getRocks
    match collisionCheck rocks moved.2 moved.1 with
    | .error e => .raised e
    | .ok exit =>
      let s2 : GameState := { s1 with ship := moved.2 }
      if exit then .gameOver s2 else .running { s2 with score := s2.score + 1 }

/-- Successive iterations of the loop of `Game::run`, one per element of
`inputs` (the key polled and the value of the random source in that
iteration), for as long as the loop goes on. -/
def runFrames : List (Int × Nat) → GameState → FrameResult
  | [], s => .running s
  | (keyboard_in, rand) :: rest, s =>
    match frame keyboard_in rand s with
    | .running s' => runFrames rest s'
    | other => other

end Game

/-- Specification-side predicate of the collision check: some rock of `rocks`
sits on a cell `(j, k)` of the footprint of `ship`, `0 ≤ j < width` and
`0 ≤ k < height`. -/
def FootprintHit (rocks : List Rock) (ship : Ship) (width height : Int) : Prop :=
  ∃ rock ∈ rocks, ∃ j k : Int, 0 ≤ j ∧ j < width ∧ 0 ≤ k ∧ k < height ∧
    rock.getPosition = ship.getPosition.add ⟨j, k⟩

/-- The values of `score`, among the `n` consecutive ones from `score` on, at
which `score % 10 == 0` holds. -/
def tickScores (score : Int) : Nat → List Int
  | 0 => []
  | n + 1 => (if Int.tmod score 10 = 0 then [score] else []) ++ tickScores (score + 1) n

/-! ## Analysis of one pass of the loop of `updateScreen` -/

/-- What one pass of the loop of `updateScreen` does with a rock of the
collection it starts from: `descended`, the rock is visited inside the
boundary and moved down; `removed`, it is visited outside the boundary and
removed; `skipped`, it is not visited, because the rock before it was removed
and the index moved on.  This type and the two functions after it analyse the
loop; they are not translated from the source. -/
inductive Fate where
  | descended
  | removed
  | skipped
  deriving DecidableEq, Repr

/-- The fate of each rock of a collection, in order, in one pass of the loop
of `updateScreen`. -/
def fates (b : Boundary) : List Rock → List Fate
  | [] => []
  | [rock] => if b.isInside rock.getPosition then [.descended] else [.removed]
  | rock :: next :: rest =>
    if b.isInside rock.getPosition then .descended :: fates b (next :: rest)
    else .removed :: .skipped :: fates b rest

/-- The collection that is left of `rocks` when each rock meets its fate. -/
def survivors : List Rock → List Fate → List Rock
  | rock :: rocks, .descended :: rest => rock.moveDown 1 :: survivors rocks rest
  | rock :: rocks, .skipped :: rest => rock :: survivors rocks rest
  | _ :: rocks, .removed :: rest => survivors rocks rest
  | _, _ => []

/-! ## The display surface and the drawing of sprites (`main.cpp` lines 123-137) -/

/-- Modelled from the spec: the display surface of section 6, a character grid
with cell-addressed writes, as the map from a cell (row, then column) to the
character it shows.  The library that implements it (ncurses) is not part of
the repository. -/
def Surface : Type := Int → Int → Char

/-- Modelled from the spec: the cell write `writeCell(row, col, char)` of the
display surface of section 6, which the program performs as
`mvaddch(y, x, ch)`: afterwards the cell `(y, x)` shows `ch` and every other
cell shows what it showed before. -/
def mvaddch (y x : Int) (ch : Char) (surface : Surface) : Surface :=
  fun row col => if row = y ∧ col = x then ch else surface row col

/-- One call `mvaddch(y, x, ch)`. -/
structure Call where
  y : Int
  x : Int
  ch : Char
  deriving DecidableEq, Repr

/-- The cell `(y, x)` that a call of `mvaddch` addresses. -/
def Call.cell (call : Call) : Int × Int := (call.y, call.x)

/-- The effect on the surface of a sequence of calls of `mvaddch`, made in
order. -/
def Surface.apply (calls : List Call) (surface : Surface) : Surface :=
  calls.foldl (fun surface call => mvaddch call.y call.x call.ch surface) surface

namespace Ship

/-- The loops of `Ship::draw` (lines 123-129) over a state `terminal` of the
terminal, with `write y x ch` standing for what `mvaddch(y, x, ch)` does to
it.  `body[row]` and `body[row][col]` are read with indices that the loop
conditions keep in range. -/
def drawWith {σ : Type} (write : Int → Int → Char → σ → σ) (ship : Ship) (terminal : σ) : σ :=
  (List.range ship.body.length).foldl
    (fun terminal row =>
      (List.range (ship.body.getD row []).length).foldl
        (fun terminal col =>
          write (ship.pos.getY + Int.ofNat row) (ship.pos.getX + Int.ofNat col)
            ((ship.body.getD row []).getD col ' ') terminal)
        terminal)
    terminal

/-- The loops of `Ship::clear` (lines 131-137), in the same way. -/
def clearWith {σ : Type} (write : Int → Int → Char → σ → σ) (ship : Ship) (terminal : σ) : σ :=
  (List.range ship.body.length).foldl
    (fun terminal row =>
      (List.range (ship.body.getD row []).length).foldl
        (fun terminal col =>
          write (ship.pos.getY + Int.ofNat row) (ship.pos.getX + Int.ofNat col) ' ' terminal)
        terminal)
    terminal

/-- The C++ `Ship::draw` (lines 123-129), on the surface. -/
def draw (ship : Ship) (surface : Surface) : Surface := ship.drawWith mvaddch surface

/-- The C++ `Ship::clear` (lines 131-137), on the surface. -/
def clear (ship : Ship) (surface : Surface) : Surface := ship.clearWith mvaddch surface

/-- The calls of `mvaddch` that `Ship::draw` makes, in the order it makes them. -/
def drawCalls (ship : Ship) : List Call :=
  ship.drawWith (fun y x ch calls => calls ++ [⟨y, x, ch⟩]) []

/-- The calls of `mvaddch` that `Ship::clear` makes, in the order it makes them. -/
def clearCalls (ship : Ship) : List Call :=
  ship.clearWith (fun y x ch calls => calls ++ [⟨y, x, ch⟩]) []

/-- The cells of the footprint of a sprite in row-major order: for each row of
the body, from the first, and each column of that row, from the first, the
cell `(pos.y + row, pos.x + col)`. -/
def footprint (ship : Ship) : List (Int × Int) :=
  (List.range ship.body.length).flatMap fun row =>
    (List.range (ship.body.getD row []).length).map fun col =>
      (ship.pos.getY + Int.ofNat row, ship.pos.getX + Int.ofNat col)

end Ship

/-! ## Helper lemmas -/

theorem Boundary.isInside_iff (b : Boundary) (p : Position) :
    b.isInside p = true ↔ b.left ≤ p.x ∧ p.x ≤ b.right ∧ b.top ≤ p.y ∧ p.y ≤ b.bottom := by
  simp only [Boundary.isInside, Position.getX, Position.getY, Bool.and_eq_true,
    decide_eq_true_eq, ge_iff_le]
  tauto

theorem RockManager.removeRock_of_lt (m : RockManager) (i : Nat)
    (h : i < m.active_rocks.length) :
    m.removeRock i = .done ⟨m.boundary, m.active_rocks.eraseIdx i⟩ := by
  unfold RockManager.removeRock
  rw [List.getElem?_eq_getElem h]

theorem RockManager.removeRock_of_ge (m : RockManager) (i : Nat)
    (h : m.active_rocks.length ≤ i) :
    m.removeRock i = .raised .outOfRange m := by
  unfold RockManager.removeRock
  rw [List.getElem?_eq_none h]

/-- One call of `moveRockDown` on an index in range returns normally, keeps the
boundary and never makes the collection longer. -/
theorem RockManager.moveRockDown_done (m : RockManager) (rock : Rock) (i : Nat)
    (h : i < m.active_rocks.length) :
    ∃ m', m.moveRockDown rock i = .done m' ∧ m'.boundary = m.boundary ∧
      m'.active_rocks.length ≤ m.active_rocks.length ∧
      m.active_rocks.length ≤ m'.active_rocks.length + 1 := by
  unfold RockManager.moveRockDown
  split
  · exact ⟨_, rfl, rfl, by simp, by simp⟩
  · rw [RockManager.removeRock_of_lt m i h]
    refine ⟨_, rfl, rfl, ?_, ?_⟩
    · exact List.length_eraseIdx_le _ _
    · simp only [List.length_eraseIdx_of_lt h]; omega

/-- With more fuel than entries left to visit, the loop of `updateScreen`
returns normally and keeps the boundary. -/
theorem RockManager.updateLoop_done (fuel : Nat) :
    ∀ (i : Nat) (m : RockManager), m.active_rocks.length - i < fuel →
      ∃ m', RockManager.updateLoop fuel i m = .done m' ∧ m'.boundary = m.boundary := by
  induction fuel with
  | zero => intro i m h; omega
  | succ fuel ih =>
    intro i m h
    unfold RockManager.updateLoop
    by_cases hi : i < m.active_rocks.length
    · rw [if_pos hi, List.getElem?_eq_getElem hi]
      obtain ⟨m1, h1, hb, hle, _⟩ := RockManager.moveRockDown_done m m.active_rocks[i] i hi
      simp only [h1]
      obtain ⟨m2, h2, hb2⟩ := ih (i + 1) m1 (by omega)
      exact ⟨m2, h2, hb2.trans hb⟩
    · rw [if_neg hi]
      exact ⟨m, rfl, rfl⟩

/-- A tick of a manager whose boundary has non-zero width returns normally. -/
theorem RockManager.updateScreen_done (m : RockManager) (rand : Nat)
    (hw : m.boundary.getWidth ≠ 0) :
    ∃ m', m.updateScreen rand = .done m' ∧ m'.boundary = m.boundary := by
  obtain ⟨m1, h1, hb⟩ := RockManager.updateLoop_done (m.active_rocks.length + 1) 0 m (by omega)
  unfold RockManager.updateScreen
  simp only [h1]
  rw [if_neg (by rw [hb]; exact hw)]
  exact ⟨_, rfl, hb⟩


/-! ## The tick of the rock manager -/

/-- C1: on the boundary of a 24 by 80 window and the collection
`[(3,25), (7,10)]`, `updateScreen` removes the first rock (it is below the
bottom edge) and then leaves the loop without visiting the second one: the
result is `[(7,10), (0,0)]`, whereas a pass that visits every rock exactly
once gives `[(7,11), (0,0)]`.  The game reaches such a state by itself: after
26 ticks of the empty manager (random draws 0, 1, ..., 25) the next tick
does not yield the collection that a pass visiting every rock once yields. -/
theorem updateScreen_skips_rock_after_removed :
    RockManager.updateScreen
        ⟨⟨0, 24, 0, 80⟩, [⟨⟨[['O']], ⟨3, 25⟩⟩⟩, ⟨⟨[['O']], ⟨7, 10⟩⟩⟩]⟩ 0
      = .done ⟨⟨0, 24, 0, 80⟩, [⟨⟨[['O']], ⟨7, 10⟩⟩⟩, ⟨⟨[['O']], ⟨0, 0⟩⟩⟩]⟩
    ∧ updateScreenSpec
        ⟨⟨0, 24, 0, 80⟩, [⟨⟨[['O']], ⟨3, 25⟩⟩⟩, ⟨⟨[['O']], ⟨7, 10⟩⟩⟩]⟩ 0
      = [⟨⟨[['O']], ⟨7, 11⟩⟩⟩, ⟨⟨[['O']], ⟨0, 0⟩⟩⟩]
    ∧ ∃ m m', RockManager.runTicks (List.range 26) ⟨⟨0, 24, 0, 80⟩, []⟩ = .done m
        ∧ m.updateScreen 26 = .done m'
        ∧ m'.getRocks ≠ updateScreenSpec m 26 := by
  refine ⟨by decide, by decide, ⟨_, _, by rfl, by rfl, by decide⟩⟩

/-- C2: on the boundary of a 24 by 80 window and the collection
`[(3,25), (7,25)]`, both rocks below the bottom edge, the rock `(7,25)` is
still in the collection after one call of `updateScreen`.  The game reaches
such a state by itself: after 28 ticks of the empty manager (random draws
0, 1, ..., 27) the rock `(2,25)` is in the collection, below the bottom edge,
and it is still in the collection after the next tick. -/
theorem updateScreen_keeps_rock_below_bottom :
    (⟨⟨[['O']], ⟨7, 25⟩⟩⟩ : Rock).getPosition.getY > (⟨0, 24, 0, 80⟩ : Boundary).bottom
    ∧ (⟨⟨[['O']], ⟨7, 25⟩⟩⟩ : Rock) ∈
        [(⟨⟨[['O']], ⟨3, 25⟩⟩⟩ : Rock), ⟨⟨[['O']], ⟨7, 25⟩⟩⟩]
    ∧ (∃ m', RockManager.updateScreen
          ⟨⟨0, 24, 0, 80⟩, [⟨⟨[['O']], ⟨3, 25⟩⟩⟩, ⟨⟨[['O']], ⟨7, 25⟩⟩⟩]⟩ 0 = .done m'
        ∧ (⟨⟨[['O']], ⟨7, 25⟩⟩⟩ : Rock) ∈ m'.getRocks)
    ∧ ∃ m m', RockManager.runTicks (List.range 28) ⟨⟨0, 24, 0, 80⟩, []⟩ = .done m
        ∧ (⟨⟨[['O']], ⟨2, 25⟩⟩⟩ : Rock) ∈ m.getRocks
        ∧ (⟨⟨[['O']], ⟨2, 25⟩⟩⟩ : Rock).getPosition.getY > m.getBoundary.bottom
        ∧ m.updateScreen 28 = .done m'
        ∧ (⟨⟨[['O']], ⟨2, 25⟩⟩⟩ : Rock) ∈ m'.getRocks := by
  refine ⟨by decide, by decide, ⟨_, rfl, by decide⟩,
    ⟨_, _, by rfl, by decide, by decide, by rfl, by decide⟩⟩

/-- C3, as stated, fails: for the boundary with top edge 5 (and width 80) the
rock spawned by a tick of the empty manager is in row 0, not in row 5. -/
theorem updateScreen_spawn_row_not_top :
    (⟨5, 24, 0, 80⟩ : Boundary).getWidth > 0
    ∧ RockManager.updateScreen ⟨⟨5, 24, 0, 80⟩, []⟩ 7
        = .done ⟨⟨5, 24, 0, 80⟩, [⟨⟨[['O']], ⟨7, 0⟩⟩⟩]⟩
    ∧ (⟨⟨[['O']], ⟨7, 0⟩⟩⟩ : Rock).getPosition.getY ≠ (⟨5, 24, 0, 80⟩ : Boundary).top := by
  refine ⟨by decide, by decide, by decide⟩

/-- C3, amended: for every boundary of width `W > 0` and every value of the
random source, a tick of the empty manager yields exactly one rock, of body
`{{'O'}}` (one row of one character), in row 0 (the top edge when the top
edge is 0) and in a column `c` with `0 ≤ c < W`. -/
theorem updateScreen_empty_spawns_one (b : Boundary) (rand : Nat)
    (hW : b.getWidth > 0) :
    ∃ rock : Rock, RockManager.updateScreen ⟨b, []⟩ rand = .done ⟨b, [rock]⟩
      ∧ rock.body = [['O']]
      ∧ rock.getPosition.getY = 0
      ∧ (b.top = 0 → rock.getPosition.getY = b.top)
      ∧ 0 ≤ rock.getPosition.getX ∧ rock.getPosition.getX < b.getWidth := by
  have hne : b.getWidth ≠ 0 := by omega
  refine ⟨⟨⟨[['O']], ⟨Int.tmod (rand : Int) b.getWidth, 0⟩⟩⟩, ?_, rfl, rfl, ?_, ?_, ?_⟩
  · simp [RockManager.updateScreen, RockManager.updateLoop, hne]
  · intro h; rw [h]; rfl
  · exact Int.tmod_nonneg _ (Int.ofNat_nonneg rand)
  · exact Int.tmod_lt_of_pos _ hW

theorem updateScreen_empty_spawns_one_witness :
    ∃ rock : Rock, RockManager.updateScreen ⟨⟨0, 24, 0, 80⟩, []⟩ 1234567
        = .done ⟨⟨0, 24, 0, 80⟩, [rock]⟩
      ∧ rock.body = [['O']]
      ∧ rock.getPosition.getY = 0
      ∧ ((⟨0, 24, 0, 80⟩ : Boundary).top = 0 →
          rock.getPosition.getY = (⟨0, 24, 0, 80⟩ : Boundary).top)
      ∧ 0 ≤ rock.getPosition.getX
      ∧ rock.getPosition.getX < (⟨0, 24, 0, 80⟩ : Boundary).getWidth :=
  updateScreen_empty_spawns_one ⟨0, 24, 0, 80⟩ 1234567 (by decide)

/-! ## Removal by index -/

/-- C4: for a collection of `n` rocks and an index `i < n`, `removeRock(i)`
returns normally with `n - 1` rocks; entries at indices below `i` are
unchanged, and each entry formerly at an index `j > i` is now at index
`j - 1`.  Removing index 1 from `[o0, o1, o2]` yields `[o0, o2]`. -/
theorem removeRock_deletes_entry (b : Boundary) (rocks : List Rock) (i : Nat)
    (hi : i < rocks.length) :
    ∃ rest : List Rock, RockManager.removeRock ⟨b, rocks⟩ i = .done ⟨b, rest⟩
      ∧ rest.length = rocks.length - 1
      ∧ (∀ j, j < i → rest[j]? = rocks[j]?)
      ∧ (∀ j, i < j → rest[j - 1]? = rocks[j]?)
      ∧ (∀ o0 o1 o2 : Rock,
          RockManager.removeRock ⟨b, [o0, o1, o2]⟩ 1 = .done ⟨b, [o0, o2]⟩) := by
  refine ⟨rocks.eraseIdx i, RockManager.removeRock_of_lt ⟨b, rocks⟩ i hi,
    List.length_eraseIdx_of_lt hi, ?_, ?_, ?_⟩
  · intro j hj
    exact List.getElem?_eraseIdx_of_lt rocks i j hj
  · intro j hj
    rw [List.getElem?_eraseIdx_of_ge rocks i (j - 1) (by omega)]
    congr 1
    omega
  · intro o0 o1 o2
    rfl

theorem removeRock_deletes_entry_witness :
    ∃ rest : List Rock,
      RockManager.removeRock ⟨⟨0, 24, 0, 80⟩,
          [⟨⟨[['O']], ⟨1, 1⟩⟩⟩, ⟨⟨[['O']], ⟨2, 2⟩⟩⟩, ⟨⟨[['O']], ⟨3, 3⟩⟩⟩]⟩ 1
        = .done ⟨⟨0, 24, 0, 80⟩, rest⟩
      ∧ rest.length = 3 - 1
      ∧ (∀ j, j < 1 → rest[j]? =
          [(⟨⟨[['O']], ⟨1, 1⟩⟩⟩ : Rock), ⟨⟨[['O']], ⟨2, 2⟩⟩⟩, ⟨⟨[['O']], ⟨3, 3⟩⟩⟩][j]?)
      ∧ (∀ j, 1 < j → rest[j - 1]? =
          [(⟨⟨[['O']], ⟨1, 1⟩⟩⟩ : Rock), ⟨⟨[['O']], ⟨2, 2⟩⟩⟩, ⟨⟨[['O']], ⟨3, 3⟩⟩⟩][j]?)
      ∧ (∀ o0 o1 o2 : Rock,
          RockManager.removeRock ⟨⟨0, 24, 0, 80⟩, [o0, o1, o2]⟩ 1
            = .done ⟨⟨0, 24, 0, 80⟩, [o0, o2]⟩) :=
  removeRock_deletes_entry ⟨0, 24, 0, 80⟩
    [⟨⟨[['O']], ⟨1, 1⟩⟩⟩, ⟨⟨[['O']], ⟨2, 2⟩⟩⟩, ⟨⟨[['O']], ⟨3, 3⟩⟩⟩] 1 (by decide)

/-- C5: `removeRock(i)` fails with `std::out_of_range`, the manager left as it
was, exactly when `i` is at least the size of the collection; it returns
normally, with entry `i` erased, exactly when `i` is below the size. -/
theorem removeRock_out_of_range_iff (m : RockManager) (i : Nat) :
    (m.removeRock i = .raised .outOfRange m ↔ m.active_rocks.length ≤ i)
    ∧ (m.removeRock i = .done ⟨m.boundary, m.active_rocks.eraseIdx i⟩
        ↔ i < m.active_rocks.length)
    ∧ (∀ e m', m.removeRock i = .raised e m' → e = .outOfRange ∧ m' = m) := by
  by_cases h : i < m.active_rocks.length
  · rw [RockManager.removeRock_of_lt m i h]
    refine ⟨⟨fun h' => (by cases h'), fun h' => (by omega)⟩, ⟨fun _ => h, fun _ => rfl⟩, ?_⟩
    intro e m' h'
    cases h'
  · have h2 : m.active_rocks.length ≤ i := by omega
    rw [RockManager.removeRock_of_ge m i h2]
    refine ⟨⟨fun _ => h2, fun _ => rfl⟩, ⟨fun h' => (by cases h'), fun h' => absurd h' h⟩, ?_⟩
    intro e m' h'
    cases h'
    exact ⟨rfl, rfl⟩

theorem removeRock_out_of_range_iff_witness :
    RockManager.removeRock ⟨⟨0, 24, 0, 80⟩, [⟨⟨[['O']], ⟨1, 1⟩⟩⟩]⟩ 1
      = .raised .outOfRange ⟨⟨0, 24, 0, 80⟩, [⟨⟨[['O']], ⟨1, 1⟩⟩⟩]⟩ :=
  (removeRock_out_of_range_iff ⟨⟨0, 24, 0, 80⟩, [⟨⟨[['O']], ⟨1, 1⟩⟩⟩]⟩ 1).1.2 (by decide)

/-! ## Containment in the boundary -/

/-- C6: `isInside(p)` is true exactly when `left ≤ p.x ≤ right` and
`top ≤ p.y ≤ bottom`, all four edges included. -/
theorem isInside_iff_within_edges (b : Boundary) (p : Position) :
    b.isInside p = true ↔
      (b.left ≤ p.getX ∧ p.getX ≤ b.right) ∧ (b.top ≤ p.getY ∧ p.getY ≤ b.bottom) := by
  rw [Boundary.isInside_iff]
  simp only [Position.getX, Position.getY]
  tauto


/-! ## The collision check -/

theorem Position.eq_iff (a p : Position) : a.eq p = true ↔ a = p := by
  cases a; cases p
  simp [Position.eq, Position.getX, Position.getY]

theorem foldl_set_flag {α : Type} (p : α → Bool) (l : List α) :
    ∀ exit : Bool,
      l.foldl (fun exit a => if p a then true else exit) exit = (exit || l.any p) := by
  induction l with
  | nil => intro exit; simp
  | cons a l ih =>
    intro exit
    rw [List.foldl_cons, ih]
    cases exit <;> cases h : p a <;> simp [h]

theorem foldl_or_flag {α : Type} (q : α → Bool) (f : Bool → α → Bool)
    (hf : ∀ exit a, f exit a = (exit || q a)) (l : List α) :
    ∀ exit : Bool, l.foldl f exit = (exit || l.any q) := by
  induction l with
  | nil => intro exit; simp
  | cons a l ih =>
    intro exit
    rw [List.foldl_cons, ih, hf]
    cases exit <;> cases h : q a <;> simp [h]

theorem Game.mem_forRange (n j : Int) : j ∈ forRange n ↔ 0 ≤ j ∧ j < n := by
  unfold forRange
  simp only [List.mem_map, List.mem_range]
  constructor
  · rintro ⟨a, ha, rfl⟩
    simp only [Int.ofNat_eq_coe]
    omega
  · rintro ⟨h0, hn⟩
    refine ⟨j.toNat, by omega, ?_⟩
    simp only [Int.ofNat_eq_coe]
    omega

/-- The two inner loops of the collision check raise the flag exactly when a
cell of the footprint is the position of the rock. -/
theorem Game.collisionCells_eq (rock : Rock) (ship : Ship) (width height : Int)
    (exit : Bool) :
    Game.collisionCells rock ship width height exit
      = (exit || (Game.forRange width).any (fun j =>
          (Game.forRange height).any (fun k =>
            rock.getPosition.eq (ship.getPosition.add ⟨j, k⟩)))) := by
  unfold Game.collisionCells
  apply foldl_or_flag
  intro exit j
  exact foldl_set_flag _ _ exit

theorem Game.collisionCells_true_iff (rock : Rock) (ship : Ship) (width height : Int)
    (exit : Bool) :
    Game.collisionCells rock ship width height exit = true ↔
      exit = true ∨ ∃ j k : Int, 0 ≤ j ∧ j < width ∧ 0 ≤ k ∧ k < height ∧
        rock.getPosition = ship.getPosition.add ⟨j, k⟩ := by
  rw [Game.collisionCells_eq]
  simp only [Bool.or_eq_true, List.any_eq_true, Game.mem_forRange, Position.eq_iff]
  constructor
  · rintro (h | ⟨j, ⟨hj0, hj⟩, k, ⟨hk0, hk⟩, h⟩)
    · exact Or.inl h
    · exact Or.inr ⟨j, k, hj0, hj, hk0, hk, h⟩
  · rintro (h | ⟨j, k, hj0, hj, hk0, hk, h⟩)
    · exact Or.inl h
    · exact Or.inr ⟨j, ⟨hj0, hj⟩, k, ⟨hk0, hk⟩, h⟩

/-- The loop over the rocks, run over a list of valid indices. -/
theorem Game.collisionCheck_fold (rocks : List Rock) (ship : Ship) (width : Int)
    (hw : ship.getWidth = .ok width) (is : List Nat) (his : ∀ i ∈ is, i < rocks.length) :
    ∀ exit : Bool, ∃ flag : Bool,
      is.foldlM (Game.collisionStep rocks ship) exit = .ok flag
      ∧ (flag = true ↔ exit = true ∨ ∃ i ∈ is, ∃ rock, rocks[i]? = some rock ∧
          ∃ j k : Int, 0 ≤ j ∧ j < width ∧ 0 ≤ k ∧ k < ship.getHeight ∧
            rock.getPosition = ship.getPosition.add ⟨j, k⟩) := by
  induction is with
  | nil =>
    intro exit
    exact ⟨exit, rfl, by simp⟩
  | cons i is ih =>
    intro exit
    have hi : i < rocks.length := his i (List.mem_cons_self _ _)
    have hstep : Game.collisionStep rocks ship exit i
        = .ok (Game.collisionCells rocks[i] ship width ship.getHeight exit) := by
      unfold Game.collisionStep
      rw [hw]
      simp only [List.getElem?_eq_getElem hi]
    obtain ⟨flag, hflag, hiff⟩ :=
      ih (fun i' h' => his i' (List.mem_cons_of_mem _ h'))
        (Game.collisionCells rocks[i] ship width ship.getHeight exit)
    refine ⟨flag, ?_, ?_⟩
    · rw [List.foldlM_cons, hstep]
      exact hflag
    · rw [hiff, Game.collisionCells_true_iff]
      constructor
      · rintro ((h | h) | ⟨i', hi', rock, hr, h⟩)
        · exact Or.inl h
        · exact Or.inr ⟨i, List.mem_cons_self _ _, rocks[i],
            List.getElem?_eq_getElem hi, h⟩
        · exact Or.inr ⟨i', List.mem_cons_of_mem _ hi', rock, hr, h⟩
      · rintro (h | ⟨i', hi', rock, hr, h⟩)
        · exact Or.inl (Or.inl h)
        · rcases List.mem_cons.mp hi' with rfl | hmem
          · rw [List.getElem?_eq_getElem hi] at hr
            cases hr
            exact Or.inl (Or.inr h)
          · exact Or.inr ⟨i', hmem, rock, hr, h⟩

/-- The collision check of a ship with at least one row returns normally, and
its flag is up exactly when it was up before or some rock sits on a cell of
the footprint. -/
theorem Game.collisionCheck_spec (rocks : List Rock) (ship : Ship) (width : Int)
    (hw : ship.getWidth = .ok width) (exit : Bool) :
    ∃ flag : Bool, Game.collisionCheck rocks ship exit = .ok flag
      ∧ (flag = true ↔ exit = true ∨ FootprintHit rocks ship width ship.getHeight) := by
  obtain ⟨flag, hflag, hiff⟩ :=
    Game.collisionCheck_fold rocks ship width hw (List.range rocks.length)
      (fun i hi => List.mem_range.mp hi) exit
  refine ⟨flag, by unfold Game.collisionCheck; exact hflag, ?_⟩
  rw [hiff]
  unfold FootprintHit
  constructor
  · rintro (h | ⟨i, _, rock, hr, h⟩)
    · exact Or.inl h
    · exact Or.inr ⟨rock, List.mem_iff_getElem?.mpr ⟨i, hr⟩, h⟩
  · rintro (h | ⟨rock, hmem, h⟩)
    · exact Or.inl h
    · obtain ⟨i, hi, hr⟩ := List.getElem_of_mem hmem
      refine Or.inr ⟨i, List.mem_range.mpr hi, rock, ?_, h⟩
      rw [List.getElem?_eq_getElem hi, hr]

theorem Ship.getWidth_of_body_ne_nil (ship : Ship) (h : ship.body ≠ []) :
    ∃ width : Int, ship.getWidth = .ok width := by
  unfold Ship.getWidth
  cases hb : ship.body with
  | nil => exact absurd hb h
  | cons row rest => exact ⟨(row.length : Int), by simp⟩

/-- C7: for a ship with at least one row (of width `width`), the collision
check returns normally and leaves the flag `exit` up exactly when it was up
before or some rock of the collection is at `ship position + (j, k)` for a
cell `0 ≤ j < width`, `0 ≤ k < height`.  With the one-cell ship at `(5,5)`, a
rock at `(5,5)` raises the flag and a rock at `(5,6)` alone does not. -/
theorem collisionCheck_raises_flag_iff :
    (∀ (rocks : List Rock) (ship : Ship) (width : Int) (exit : Bool),
      ship.getWidth = .ok width →
      ∃ flag : Bool, Game.collisionCheck rocks ship exit = .ok flag
        ∧ (flag = true ↔ exit = true ∨ FootprintHit rocks ship width ship.getHeight))
    ∧ Game.collisionCheck [⟨⟨[['O']], ⟨5, 5⟩⟩⟩] ⟨[['*']], ⟨5, 5⟩⟩ false = .ok true
    ∧ Game.collisionCheck [⟨⟨[['O']], ⟨5, 6⟩⟩⟩] ⟨[['*']], ⟨5, 5⟩⟩ false = .ok false := by
  refine ⟨?_, by decide, by decide⟩
  intro rocks ship width exit hw
  exact Game.collisionCheck_spec rocks ship width hw exit

theorem collisionCheck_raises_flag_iff_witness :
    ∃ flag : Bool,
      Game.collisionCheck [⟨⟨[['O']], ⟨4, 9⟩⟩⟩, ⟨⟨[['O']], ⟨6, 8⟩⟩⟩]
          ⟨[['*', '*'], ['*', '*']], ⟨5, 7⟩⟩ false = .ok flag
      ∧ (flag = true ↔ false = true ∨
          FootprintHit [⟨⟨[['O']], ⟨4, 9⟩⟩⟩, ⟨⟨[['O']], ⟨6, 8⟩⟩⟩]
            ⟨[['*', '*'], ['*', '*']], ⟨5, 7⟩⟩ 2
            (Ship.getHeight ⟨[['*', '*'], ['*', '*']], ⟨5, 7⟩⟩)) :=
  collisionCheck_raises_flag_iff.1 [⟨⟨[['O']], ⟨4, 9⟩⟩⟩, ⟨⟨[['O']], ⟨6, 8⟩⟩⟩]
    ⟨[['*', '*'], ['*', '*']], ⟨5, 7⟩⟩ 2 false (by decide)


/-! ## One iteration of the game loop -/

theorem tmod_ten_eq_zero_iff (score : Int) : Int.tmod score 10 = 0 ↔ score % 10 = 0 := by
  rw [← Int.dvd_iff_tmod_eq_zero, Int.dvd_iff_emod_eq_zero]

theorem Game.keyStep_flag (keyboard_in : Int) (ship : Ship) :
    (Game.keyStep keyboard_in false ship).1 = true ↔ keyboard_in = KEY_Q := by
  unfold Game.keyStep
  by_cases hq : keyboard_in = KEY_Q
  · simp [hq]
  · rw [if_neg hq]
    split
    · simp [hq]
    · split <;> simp [hq]

theorem Game.keyStep_body (keyboard_in : Int) (exit : Bool) (ship : Ship) :
    (Game.keyStep keyboard_in exit ship).2.body = ship.body := by
  unfold Game.keyStep
  split
  · rfl
  · split
    · rfl
    · split <;> rfl

/-- The conditional tick of an iteration returns normally when the boundary of
the manager has non-zero width (which matters only if the tick is due); it
changes neither the score nor the ship, and it logs the score exactly when
the score is a multiple of 10. -/
theorem Game.tickStep_done (rand : Nat) (s : GameState)
    (hw : s.score % 10 = 0 → s.rock_manager.boundary.getWidth ≠ 0) :
    ∃ s1, Game.tickStep rand s = .done s1 ∧ s1.score = s.score ∧ s1.ship = s.ship
      ∧ s1.rock_manager.boundary = s.rock_manager.boundary
      ∧ s1.ticks = (if s.score % 10 = 0 then s.ticks ++ [s.score] else s.ticks)
      ∧ (if s.score % 10 = 0 then s.rock_manager.updateScreen rand = .done s1.rock_manager
          else s1.rock_manager = s.rock_manager) := by
  unfold Game.tickStep
  by_cases h : Int.tmod s.score 10 = 0
  · have h' : s.score % 10 = 0 := (tmod_ten_eq_zero_iff _).mp h
    obtain ⟨m, hm, hb⟩ := RockManager.updateScreen_done s.rock_manager rand (hw h')
    rw [if_pos h, hm]
    exact ⟨_, rfl, rfl, rfl, hb, by rw [if_pos h'], by rw [if_pos h']⟩
  · have h' : ¬ s.score % 10 = 0 := fun h2 => h ((tmod_ten_eq_zero_iff _).mpr h2)
    rw [if_neg h]
    exact ⟨s, rfl, rfl, rfl, rfl, by rw [if_neg h'], by rw [if_neg h']⟩

/-- An iteration of the game loop, for a ship with at least one row and, if
the tick is due, a boundary of non-zero width, split into its steps. -/
theorem Game.frame_steps (keyboard_in : Int) (rand : Nat) (s : GameState)
    (hbody : s.ship.body ≠ [])
    (hw : s.score % 10 = 0 → s.rock_manager.boundary.getWidth ≠ 0) :
    ∃ (s1 : GameState) (width : Int) (flag : Bool),
      Game.tickStep rand s = .done s1
      ∧ (Game.keyStep keyboard_in false s1.ship).2.getWidth = .ok width
      ∧ (flag = true ↔ keyboard_in = KEY_Q ∨
          FootprintHit s1.rock_manager.getRocks (Game.keyStep keyboard_in false s1.ship).2
            width (Game.keyStep keyboard_in false s1.ship).2.getHeight)
      ∧ Game.frame keyboard_in rand s
          = (if flag then
              .gameOver { s1 with ship := (Game.keyStep keyboard_in false s1.ship).2 }
            else
              .running { s1 with ship := (Game.keyStep keyboard_in false s1.ship).2,
                                 score := s1.score + 1 }) := by
  obtain ⟨s1, h1, _, hship, _, _, _⟩ := Game.tickStep_done rand s hw
  obtain ⟨width, hwidth⟩ :=
    Ship.getWidth_of_body_ne_nil (Game.keyStep keyboard_in false s1.ship).2
      (by rw [Game.keyStep_body, hship]; exact hbody)
  obtain ⟨flag, hflag, hiff⟩ :=
    Game.collisionCheck_spec s1.rock_manager.getRocks
      (Game.keyStep keyboard_in false s1.ship).2 width hwidth
      (Game.keyStep keyboard_in false s1.ship).1
  refine ⟨s1, width, flag, h1, hwidth, ?_, ?_⟩
  · rw [hiff, Game.keyStep_flag]
  · unfold Game.frame
    simp only [h1, hflag]

/-- C8: an iteration of the loop of `Game::run`, for a ship with at least one
row and (when the tick is due) a boundary of non-zero width, ends either in
`displayScore(game_area)` or at the end of the loop body; it ends in
`displayScore(game_area)` exactly when the key is `q` or some rock of the
collection after the conditional tick sits on a cell of the footprint of the
ship after the movement, and at the end of the loop body otherwise. -/
theorem frame_gameOver_iff (keyboard_in : Int) (rand : Nat) (s : GameState)
    (hbody : s.ship.body ≠ [])
    (hw : s.score % 10 = 0 → s.rock_manager.boundary.getWidth ≠ 0) :
    ∃ (s1 : GameState) (width : Int),
      Game.tickStep rand s = .done s1
      ∧ (Game.keyStep keyboard_in false s1.ship).2.getWidth = .ok width
      ∧ ((∃ s', Game.frame keyboard_in rand s = .gameOver s') ↔
          (keyboard_in = KEY_Q ∨
            FootprintHit s1.rock_manager.getRocks (Game.keyStep keyboard_in false s1.ship).2
              width (Game.keyStep keyboard_in false s1.ship).2.getHeight))
      ∧ ((∃ s', Game.frame keyboard_in rand s = .running s') ↔
          ¬ (keyboard_in = KEY_Q ∨
            FootprintHit s1.rock_manager.getRocks (Game.keyStep keyboard_in false s1.ship).2
              width (Game.keyStep keyboard_in false s1.ship).2.getHeight)) := by
  obtain ⟨s1, width, flag, h1, hwidth, hiff, hframe⟩ :=
    Game.frame_steps keyboard_in rand s hbody hw
  refine ⟨s1, width, h1, hwidth, ?_, ?_⟩
  · rw [← hiff, hframe]
    cases flag <;> simp
  · rw [← hiff, hframe]
    cases flag <;> simp

theorem frame_gameOver_iff_witness :
    ∃ (s1 : GameState) (width : Int),
      Game.tickStep 40 (Game.initialState 24 80) = .done s1
      ∧ (Game.keyStep KEY_LEFT false s1.ship).2.getWidth = .ok width
      ∧ ((∃ s', Game.frame KEY_LEFT 40 (Game.initialState 24 80) = .gameOver s') ↔
          (KEY_LEFT = KEY_Q ∨
            FootprintHit s1.rock_manager.getRocks (Game.keyStep KEY_LEFT false s1.ship).2
              width (Game.keyStep KEY_LEFT false s1.ship).2.getHeight))
      ∧ ((∃ s', Game.frame KEY_LEFT 40 (Game.initialState 24 80) = .running s') ↔
          ¬ (KEY_LEFT = KEY_Q ∨
            FootprintHit s1.rock_manager.getRocks (Game.keyStep KEY_LEFT false s1.ship).2
              width (Game.keyStep KEY_LEFT false s1.ship).2.getHeight)) :=
  frame_gameOver_iff KEY_LEFT 40 (Game.initialState 24 80) (by decide) (by decide)


/-! ## Cadence of the tick and the score -/

/-- What a normal return of the conditional tick leaves of the state. -/
theorem Game.tickStep_inv (rand : Nat) (s s1 : GameState)
    (h : Game.tickStep rand s = .done s1) :
    s1.score = s.score ∧ s1.ship = s.ship
      ∧ s1.ticks = s.ticks ++ (if Int.tmod s.score 10 = 0 then [s.score] else []) := by
  unfold Game.tickStep at h
  by_cases h10 : Int.tmod s.score 10 = 0
  · rw [if_pos h10] at h
    rw [if_pos h10]
    cases hu : s.rock_manager.updateScreen rand with
    | done m =>
      rw [hu] at h
      cases h
      exact ⟨rfl, rfl, rfl⟩
    | raised e m => rw [hu] at h; cases h
    | outOfFuel => rw [hu] at h; cases h
  · rw [if_neg h10] at h
    rw [if_neg h10]
    cases h
    exact ⟨rfl, rfl, by simp⟩

/-- What an iteration that ends leaves of the score and of the log of ticks. -/
theorem Game.frame_inv (keyboard_in : Int) (rand : Nat) (s s' : GameState) :
    (Game.frame keyboard_in rand s = .running s' →
        s'.score = s.score + 1
        ∧ s'.ticks = s.ticks ++ (if Int.tmod s.score 10 = 0 then [s.score] else []))
    ∧ (Game.frame keyboard_in rand s = .gameOver s' →
        s'.score = s.score
        ∧ s'.ticks = s.ticks ++ (if Int.tmod s.score 10 = 0 then [s.score] else [])) := by
  unfold Game.frame
  cases ht : Game.tickStep rand s with
  | raised e m => exact ⟨fun h => (by cases h), fun h => (by cases h)⟩
  | outOfFuel => exact ⟨fun h => (by cases h), fun h => (by cases h)⟩
  | done s1 =>
    obtain ⟨hscore, _, hticks⟩ := Game.tickStep_inv rand s s1 ht
    simp only
    cases hc : Game.collisionCheck s1.rock_manager.getRocks
        (Game.keyStep keyboard_in false s1.ship).2 (Game.keyStep keyboard_in false s1.ship).1 with
    | error e => exact ⟨fun h => (by cases h), fun h => (by cases h)⟩
    | ok flag =>
      cases flag
      · refine ⟨fun h => ?_, fun h => by simp at h⟩
        simp only [Bool.false_eq_true, if_false, FrameResult.running.injEq] at h
        subst h
        exact ⟨by simp [hscore], hticks⟩
      · refine ⟨fun h => by simp at h, fun h => ?_⟩
        simp only [if_true, FrameResult.gameOver.injEq] at h
        subst h
        exact ⟨hscore, hticks⟩

/-- After a run of iterations that all reach the end of the loop body, the
score has grown by their number and the log of ticks by the multiples of 10
that the score went through. -/
theorem Game.runFrames_running (inputs : List (Int × Nat)) :
    ∀ s s' : GameState, Game.runFrames inputs s = .running s' →
      s'.score = s.score + inputs.length
      ∧ s'.ticks = s.ticks ++ tickScores s.score inputs.length := by
  induction inputs with
  | nil =>
    intro s s' h
    simp only [Game.runFrames, FrameResult.running.injEq] at h
    subst h
    simp [tickScores]
  | cons input rest ih =>
    intro s s' h
    obtain ⟨keyboard_in, rand⟩ := input
    unfold Game.runFrames at h
    cases hf : Game.frame keyboard_in rand s with
    | running s1 =>
      rw [hf] at h
      obtain ⟨hs, ht⟩ := (Game.frame_inv keyboard_in rand s s1).1 hf
      obtain ⟨hs', ht'⟩ := ih s1 s' h
      refine ⟨?_, ?_⟩
      · rw [hs', hs, List.length_cons]; push_cast; ring
      · rw [ht', ht, hs, List.length_cons, tickScores, List.append_assoc]
    | gameOver s1 => rw [hf] at h; cases h
    | raised e => rw [hf] at h; cases h
    | outOfFuel => rw [hf] at h; cases h

/-- The score at the end of a run that stops in `displayScore(game_area)` is
at least the score at its start. -/
theorem Game.runFrames_gameOver (inputs : List (Int × Nat)) :
    ∀ s s' : GameState, Game.runFrames inputs s = .gameOver s' → s.score ≤ s'.score := by
  induction inputs with
  | nil => intro s s' h; simp [Game.runFrames] at h
  | cons input rest ih =>
    intro s s' h
    obtain ⟨keyboard_in, rand⟩ := input
    unfold Game.runFrames at h
    cases hf : Game.frame keyboard_in rand s with
    | running s1 =>
      rw [hf] at h
      have hs := ((Game.frame_inv keyboard_in rand s s1).1 hf).1
      have := ih s1 s' h
      omega
    | gameOver s1 =>
      rw [hf] at h
      simp only [FrameResult.gameOver.injEq] at h
      subst h
      have hs := ((Game.frame_inv keyboard_in rand s s1).2 hf).1
      omega
    | raised e => rw [hf] at h; cases h
    | outOfFuel => rw [hf] at h; cases h

/-- C9: an iteration of the loop of `Game::run` (ship with at least one row,
boundary of non-zero width when the tick is due) ends, and it has invoked
`updateScreen` exactly when the score at its start is a multiple of 10: in
that case the log `ticks` has the score as its new last entry and the manager
is the one `updateScreen` returns, otherwise the log and the manager are as
they were.  Over 20 consecutive iterations from score 0 that all reach the
end of the loop body, `updateScreen` is invoked at scores 0 and 10 and at no
other. -/
theorem updateScreen_invoked_iff_score_multiple_of_ten :
    (∀ (keyboard_in : Int) (rand : Nat) (s : GameState),
      s.ship.body ≠ [] → (s.score % 10 = 0 → s.rock_manager.boundary.getWidth ≠ 0) →
      ∃ s', (Game.frame keyboard_in rand s = .running s'
              ∨ Game.frame keyboard_in rand s = .gameOver s')
        ∧ s'.ticks = (if s.score % 10 = 0 then s.ticks ++ [s.score] else s.ticks)
        ∧ (if s.score % 10 = 0 then s.rock_manager.updateScreen rand = .done s'.rock_manager
            else s'.rock_manager = s.rock_manager))
    ∧ (∀ (inputs : List (Int × Nat)) (s s' : GameState),
      inputs.length = 20 → s.score = 0 → Game.runFrames inputs s = .running s' →
      s'.ticks = s.ticks ++ [0, 10]) := by
  constructor
  · intro keyboard_in rand s hbody hw
    obtain ⟨s1, width, flag, h1, _, _, hframe⟩ := Game.frame_steps keyboard_in rand s hbody hw
    obtain ⟨s1', h1', _, _, _, hticks, hman⟩ := Game.tickStep_done rand s hw
    rw [h1] at h1'
    cases h1'
    cases flag
    · exact ⟨_, Or.inl (hframe.trans (if_neg Bool.false_ne_true)), hticks, hman⟩
    · exact ⟨_, Or.inr (hframe.trans (if_pos rfl)), hticks, hman⟩
  · intro inputs s s' hlen hscore hrun
    rw [(Game.runFrames_running inputs s s' hrun).2, hlen, hscore]
    rfl

theorem updateScreen_invoked_iff_score_multiple_of_ten_witness :
    (∃ s', (Game.frame (-1) 0 (Game.initialState 24 80) = .running s'
              ∨ Game.frame (-1) 0 (Game.initialState 24 80) = .gameOver s')
        ∧ s'.ticks = (if (Game.initialState 24 80).score % 10 = 0
            then (Game.initialState 24 80).ticks ++ [(Game.initialState 24 80).score]
            else (Game.initialState 24 80).ticks)
        ∧ (if (Game.initialState 24 80).score % 10 = 0
            then (Game.initialState 24 80).rock_manager.updateScreen 0 = .done s'.rock_manager
            else s'.rock_manager = (Game.initialState 24 80).rock_manager))
    ∧ GameState.ticks
        { score := 20
          game_area := ⟨0, 24, 0, 80⟩
          rock_manager := ⟨⟨0, 24, 0, 80⟩, [⟨⟨[['O']], ⟨0, 1⟩⟩⟩, ⟨⟨[['O']], ⟨0, 0⟩⟩⟩]⟩
          ship := ⟨[['*']], ⟨40, 14⟩⟩
          ticks := [0, 10] }
      = (Game.initialState 24 80).ticks ++ [0, 10] :=
  ⟨updateScreen_invoked_iff_score_multiple_of_ten.1 (-1) 0 (Game.initialState 24 80)
      (by decide) (by decide),
    updateScreen_invoked_iff_score_multiple_of_ten.2 (List.replicate 20 (-1, 0))
      (Game.initialState 24 80) _ (by decide) (by decide) (by decide)⟩

/-- C10: the score is 0 when `Game::run` enters its loop; an iteration that
reaches the end of the loop body leaves the score one higher, and an
iteration that ends in `displayScore(game_area)` leaves it as it was; hence
after `n` iterations that all reach the end of the loop body the score is
`n`, and over any run the score does not decrease. -/
theorem score_counts_completed_frames :
    (∀ bottom right : Int, (Game.initialState bottom right).score = 0)
    ∧ (∀ (keyboard_in : Int) (rand : Nat) (s s' : GameState),
        Game.frame keyboard_in rand s = .running s' → s'.score = s.score + 1)
    ∧ (∀ (keyboard_in : Int) (rand : Nat) (s s' : GameState),
        Game.frame keyboard_in rand s = .gameOver s' → s'.score = s.score)
    ∧ (∀ (inputs : List (Int × Nat)) (bottom right : Int) (s' : GameState),
        Game.runFrames inputs (Game.initialState bottom right) = .running s' →
        s'.score = inputs.length)
    ∧ (∀ (inputs : List (Int × Nat)) (s s' : GameState),
        (Game.runFrames inputs s = .running s' ∨ Game.runFrames inputs s = .gameOver s') →
        s.score ≤ s'.score) := by
  refine ⟨fun _ _ => rfl, ?_, ?_, ?_, ?_⟩
  · intro keyboard_in rand s s' h
    exact ((Game.frame_inv keyboard_in rand s s').1 h).1
  · intro keyboard_in rand s s' h
    exact ((Game.frame_inv keyboard_in rand s s').2 h).1
  · intro inputs bottom right s' h
    have := (Game.runFrames_running inputs _ s' h).1
    rw [this]
    show (0 : Int) + _ = _
    simp
  · intro inputs s s' h
    rcases h with h | h
    · have := (Game.runFrames_running inputs s s' h).1
      omega
    · exact Game.runFrames_gameOver inputs s s' h

theorem score_counts_completed_frames_witness :
    GameState.score
        { score := 3
          game_area := ⟨0, 24, 0, 80⟩
          rock_manager := ⟨⟨0, 24, 0, 80⟩, [⟨⟨[['O']], ⟨40, 0⟩⟩⟩]⟩
          ship := ⟨[['*']], ⟨38, 14⟩⟩
          ticks := [0] }
      = ((List.length [(KEY_LEFT, 40), (-1, 0), ((-1 : Int), 0)] : Nat) : Int)
    ∧ GameState.score
        { score := 11
          game_area := ⟨0, 24, 0, 80⟩
          rock_manager := ⟨⟨0, 14, 0, 80⟩, [⟨⟨[['O']], ⟨40, 14⟩⟩⟩]⟩
          ship := ⟨[['*']], ⟨40, 14⟩⟩
          ticks := [] }
      = GameState.score
        { score := 11
          game_area := ⟨0, 24, 0, 80⟩
          rock_manager := ⟨⟨0, 14, 0, 80⟩, [⟨⟨[['O']], ⟨40, 14⟩⟩⟩]⟩
          ship := ⟨[['*']], ⟨40, 14⟩⟩
          ticks := [] } :=
  ⟨score_counts_completed_frames.2.2.2.1 [(KEY_LEFT, 40), (-1, 0), (-1, 0)] 24 80 _
      (by decide),
    score_counts_completed_frames.2.2.1 (-1) 0
      { score := 11
        game_area := ⟨0, 24, 0, 80⟩
        rock_manager := ⟨⟨0, 14, 0, 80⟩, [⟨⟨[['O']], ⟨40, 14⟩⟩⟩]⟩
        ship := ⟨[['*']], ⟨40, 14⟩⟩
        ticks := [] } _ (by decide)⟩

/-! ## Position arithmetic -/

/-- C11: for all positions `a` and `b`, `(a - b) + b == a`. -/
theorem position_sub_then_add_eq (a b : Position) : ((a.sub b).add b).eq a = true := by
  rw [Position.eq_iff]
  cases a; cases b
  simp [Position.sub, Position.add, Position.getX, Position.getY]

/-! ## Movement of the ship -/

theorem Game.keyStep_pos (keyboard_in : Int) (exit : Bool) (ship : Ship) :
    (Game.keyStep keyboard_in exit ship).2.getPosition
      = ship.getPosition.add
          ⟨if keyboard_in = KEY_LEFT then -2 else if keyboard_in = KEY_RIGHT then 2 else 0, 0⟩ := by
  obtain ⟨body, ⟨x, y⟩⟩ := ship
  have hQL : ¬ KEY_Q = KEY_LEFT := by decide
  have hQR : ¬ KEY_Q = KEY_RIGHT := by decide
  have hLQ : ¬ KEY_LEFT = KEY_Q := by decide
  have hRQ : ¬ KEY_RIGHT = KEY_Q := by decide
  have hRL : ¬ KEY_RIGHT = KEY_LEFT := by decide
  unfold Game.keyStep
  by_cases hq : keyboard_in = KEY_Q
  · subst hq
    simp [hQL, hQR, Ship.getPosition, Position.add, Position.getX, Position.getY]
  · by_cases hl : keyboard_in = KEY_LEFT
    · subst hl
      simp [hLQ, Ship.getPosition, Ship.moveLeft, Position.add, Position.getX,
        Position.getY, Position.setX]
      omega
    · by_cases hr : keyboard_in = KEY_RIGHT
      · subst hr
        simp [hRQ, hRL, Ship.getPosition, Ship.moveRight, Position.add, Position.getX,
          Position.getY, Position.setX]
      · simp [hq, hl, hr, Ship.getPosition, Position.add, Position.getX, Position.getY]

/-- What an iteration that ends leaves of the manager and of the ship. -/
theorem Game.frame_inv_state (keyboard_in : Int) (rand : Nat) (s s' : GameState)
    (h : Game.frame keyboard_in rand s = .running s'
      ∨ Game.frame keyboard_in rand s = .gameOver s') :
    ∃ s1, Game.tickStep rand s = .done s1 ∧ s'.rock_manager = s1.rock_manager
      ∧ s'.ship = (Game.keyStep keyboard_in false s1.ship).2 := by
  unfold Game.frame at h
  cases ht : Game.tickStep rand s with
  | raised e m => rw [ht] at h; rcases h with h | h <;> cases h
  | outOfFuel => rw [ht] at h; rcases h with h | h <;> cases h
  | done s1 =>
    rw [ht] at h
    simp only at h
    refine ⟨s1, rfl, ?_⟩
    cases hc : Game.collisionCheck s1.rock_manager.getRocks
        (Game.keyStep keyboard_in false s1.ship).2 (Game.keyStep keyboard_in false s1.ship).1 with
    | error e => rw [hc] at h; rcases h with h | h <;> cases h
    | ok flag =>
      rw [hc] at h
      cases flag
      · rcases h with h | h
        · simp only [Bool.false_eq_true, if_false, FrameResult.running.injEq] at h
          subst h
          exact ⟨rfl, rfl⟩
        · simp at h
      · rcases h with h | h
        · simp at h
        · simp only [if_true, FrameResult.gameOver.injEq] at h
          subst h
          exact ⟨rfl, rfl⟩

/-- C12: the `switch` of an iteration moves the ship by `(-2, 0)` for the left
key, by `(+2, 0)` for the right key and not at all for any other value of
`wgetch`, whatever the starting position; an iteration that ends leaves the
ship at that position, for every boundary, with no clamping: 21 iterations
with the left key take the ship of a 24 by 80 window out of the game area. -/
theorem ship_moves_two_cells_unclamped :
    (∀ (keyboard_in : Int) (exit : Bool) (ship : Ship),
      (Game.keyStep keyboard_in exit ship).2.getPosition
        = ship.getPosition.add
            ⟨if keyboard_in = KEY_LEFT then -2 else if keyboard_in = KEY_RIGHT then 2 else 0, 0⟩)
    ∧ (∀ (keyboard_in : Int) (rand : Nat) (s : GameState),
      s.ship.body ≠ [] → (s.score % 10 = 0 → s.rock_manager.boundary.getWidth ≠ 0) →
      ∃ s', (Game.frame keyboard_in rand s = .running s'
              ∨ Game.frame keyboard_in rand s = .gameOver s')
        ∧ s'.ship.getPosition
            = s.ship.getPosition.add
                ⟨if keyboard_in = KEY_LEFT then -2
                  else if keyboard_in = KEY_RIGHT then 2 else 0, 0⟩)
    ∧ (∃ s', Game.runFrames (List.replicate 21 (KEY_LEFT, 0)) (Game.initialState 24 80)
          = .running s'
        ∧ s'.ship.getPosition = ⟨-2, 14⟩
        ∧ s'.game_area.isInside s'.ship.getPosition = false) := by
  refine ⟨Game.keyStep_pos, ?_, ⟨_, by rfl, by decide, by decide⟩⟩
  intro keyboard_in rand s hbody hw
  obtain ⟨s1, width, flag, h1, _, _, hframe⟩ := Game.frame_steps keyboard_in rand s hbody hw
  have hship : s1.ship = s.ship := (Game.tickStep_inv rand s s1 h1).2.1
  have hpos := Game.keyStep_pos keyboard_in false s1.ship
  rw [hship] at hpos
  cases flag
  · refine ⟨_, Or.inl (hframe.trans (if_neg Bool.false_ne_true)), ?_⟩
    rw [← hpos, hship]
  · refine ⟨_, Or.inr (hframe.trans (if_pos rfl)), ?_⟩
    rw [← hpos, hship]

theorem ship_moves_two_cells_unclamped_witness :
    ∃ s', (Game.frame KEY_RIGHT 0 (Game.initialState 24 80) = .running s'
            ∨ Game.frame KEY_RIGHT 0 (Game.initialState 24 80) = .gameOver s')
      ∧ s'.ship.getPosition
          = (Game.initialState 24 80).ship.getPosition.add
              ⟨if KEY_RIGHT = KEY_LEFT then -2 else if KEY_RIGHT = KEY_RIGHT then 2 else 0, 0⟩ :=
  ship_moves_two_cells_unclamped.2.1 KEY_RIGHT 0 (Game.initialState 24 80)
    (by decide) (by decide)

/-! ## Descent of a rock -/

/-- C14: `moveDown(amount)` adds `amount` to the Y coordinate of the rock and
leaves its X coordinate and its body as they were; it checks no bound: for
every boundary and every rock some positive amount takes the rock out of the
boundary. -/
theorem moveDown_adds_to_y_only :
    (∀ (rock : Rock) (amount : Int),
      (rock.moveDown amount).getPosition.getY = rock.getPosition.getY + amount
      ∧ (rock.moveDown amount).getPosition.getX = rock.getPosition.getX
      ∧ (rock.moveDown amount).body = rock.body)
    ∧ (∀ (b : Boundary) (rock : Rock), ∃ amount : Int, 0 < amount
      ∧ b.isInside (rock.moveDown amount).getPosition = false) := by
  constructor
  · intro rock amount
    exact ⟨rfl, rfl, rfl⟩
  · intro b rock
    refine ⟨max 1 (b.bottom - rock.getPosition.getY + 1), by omega, ?_⟩
    rw [Bool.eq_false_iff]
    intro h
    rw [Boundary.isInside_iff] at h
    have hy : (rock.moveDown (max 1 (b.bottom - rock.getPosition.getY + 1))).getPosition.y
        = rock.getPosition.getY + max 1 (b.bottom - rock.getPosition.getY + 1) := rfl
    omega

/-! ## The game loop and the collection of rocks -/

/-- C15: an iteration of the loop of `Game::run` that ends leaves the manager
as the conditional tick left it (the movement of the ship and the collision
check change nothing in it), hence, when the score at its start is not a
multiple of 10, as it was before the iteration, whatever the key; and such an
iteration does end for a ship with at least one row. -/
theorem frame_changes_rocks_only_by_tick :
    (∀ (keyboard_in : Int) (rand : Nat) (s s' : GameState),
      (Game.frame keyboard_in rand s = .running s'
        ∨ Game.frame keyboard_in rand s = .gameOver s') →
      ∃ s1, Game.tickStep rand s = .done s1 ∧ s'.rock_manager = s1.rock_manager)
    ∧ (∀ (keyboard_in : Int) (rand : Nat) (s s' : GameState),
      (Game.frame keyboard_in rand s = .running s'
        ∨ Game.frame keyboard_in rand s = .gameOver s') →
      s.score % 10 ≠ 0 → s'.rock_manager = s.rock_manager)
    ∧ (∀ (keyboard_in : Int) (rand : Nat) (s : GameState),
      s.ship.body ≠ [] → s.score % 10 ≠ 0 →
      ∃ s', (Game.frame keyboard_in rand s = .running s'
              ∨ Game.frame keyboard_in rand s = .gameOver s')
        ∧ s'.rock_manager = s.rock_manager) := by
  have key : ∀ (keyboard_in : Int) (rand : Nat) (s s' : GameState),
      (Game.frame keyboard_in rand s = .running s'
        ∨ Game.frame keyboard_in rand s = .gameOver s') →
      s.score % 10 ≠ 0 → s'.rock_manager = s.rock_manager := by
    intro keyboard_in rand s s' h hne
    obtain ⟨s1, h1, hman, _⟩ := Game.frame_inv_state keyboard_in rand s s' h
    obtain ⟨s1', h1', _, _, _, _, hrm⟩ :=
      Game.tickStep_done rand s (fun h0 => absurd h0 hne)
    rw [h1] at h1'
    cases h1'
    rw [if_neg hne] at hrm
    rw [hman, hrm]
  refine ⟨?_, key, ?_⟩
  · intro keyboard_in rand s s' h
    obtain ⟨s1, h1, hman, _⟩ := Game.frame_inv_state keyboard_in rand s s' h
    exact ⟨s1, h1, hman⟩
  · intro keyboard_in rand s hbody hne
    obtain ⟨s1, width, flag, h1, _, _, hframe⟩ :=
      Game.frame_steps keyboard_in rand s hbody (fun h0 => absurd h0 hne)
    cases flag
    · have hf := hframe.trans (if_neg Bool.false_ne_true)
      exact ⟨_, Or.inl hf, key keyboard_in rand s _ (Or.inl hf) hne⟩
    · have hf := hframe.trans (if_pos rfl)
      exact ⟨_, Or.inr hf, key keyboard_in rand s _ (Or.inr hf) hne⟩

theorem frame_changes_rocks_only_by_tick_witness :
    ∃ s', (Game.frame KEY_LEFT 5
            { score := 13
              game_area := ⟨0, 24, 0, 80⟩
              rock_manager := ⟨⟨0, 24, 0, 80⟩, [⟨⟨[['O']], ⟨5, 1⟩⟩⟩, ⟨⟨[['O']], ⟨9, 0⟩⟩⟩]⟩
              ship := ⟨[['*']], ⟨40, 14⟩⟩
              ticks := [0, 10] } = .running s'
          ∨ Game.frame KEY_LEFT 5
            { score := 13
              game_area := ⟨0, 24, 0, 80⟩
              rock_manager := ⟨⟨0, 24, 0, 80⟩, [⟨⟨[['O']], ⟨5, 1⟩⟩⟩, ⟨⟨[['O']], ⟨9, 0⟩⟩⟩]⟩
              ship := ⟨[['*']], ⟨40, 14⟩⟩
              ticks := [0, 10] } = .gameOver s')
      ∧ s'.rock_manager
          = ⟨⟨0, 24, 0, 80⟩, [⟨⟨[['O']], ⟨5, 1⟩⟩⟩, ⟨⟨[['O']], ⟨9, 0⟩⟩⟩]⟩ :=
  frame_changes_rocks_only_by_tick.2.2 KEY_LEFT 5
    { score := 13
      game_area := ⟨0, 24, 0, 80⟩
      rock_manager := ⟨⟨0, 24, 0, 80⟩, [⟨⟨[['O']], ⟨5, 1⟩⟩⟩, ⟨⟨[['O']], ⟨9, 0⟩⟩⟩]⟩
      ship := ⟨[['*']], ⟨40, 14⟩⟩
      ticks := [0, 10] } (by decide) (by decide)

/-! ## Drawing and clearing a sprite -/

theorem foldl_flatMap_eq {α β σ : Type} (f : α → List β) (g : σ → β → σ) (l : List α) :
    ∀ t : σ, l.foldl (fun t a => (f a).foldl g t) t = (l.flatMap f).foldl g t := by
  induction l with
  | nil => intro t; rfl
  | cons a l ih =>
    intro t
    rw [List.foldl_cons, ih, List.flatMap_cons, List.foldl_append]

theorem foldl_log_eq {β : Type} (l : List β) :
    ∀ init : List β, l.foldl (fun calls b => calls ++ [b]) init = init ++ l := by
  induction l with
  | nil => intro init; simp
  | cons b l ih =>
    intro init
    rw [List.foldl_cons, ih, List.append_assoc, List.singleton_append]

/-- The loops of `Ship::draw` make the calls for the cells of the body in
row-major order, whatever the calls do. -/
theorem Ship.drawWith_eq {σ : Type} (write : Int → Int → Char → σ → σ) (ship : Ship)
    (terminal : σ) :
    ship.drawWith write terminal
      = ((List.range ship.body.length).flatMap fun row =>
          (List.range (ship.body.getD row []).length).map fun col =>
            (⟨ship.pos.getY + Int.ofNat row, ship.pos.getX + Int.ofNat col,
              (ship.body.getD row []).getD col ' '⟩ : Call)).foldl
          (fun terminal call => write call.y call.x call.ch terminal) terminal := by
  unfold Ship.drawWith
  rw [← foldl_flatMap_eq]
  congr 1
  funext terminal row
  rw [List.foldl_map]

theorem Ship.clearWith_eq {σ : Type} (write : Int → Int → Char → σ → σ) (ship : Ship)
    (terminal : σ) :
    ship.clearWith write terminal
      = ((List.range ship.body.length).flatMap fun row =>
          (List.range (ship.body.getD row []).length).map fun col =>
            (⟨ship.pos.getY + Int.ofNat row, ship.pos.getX + Int.ofNat col, ' '⟩ : Call)).foldl
          (fun terminal call => write call.y call.x call.ch terminal) terminal := by
  unfold Ship.clearWith
  rw [← foldl_flatMap_eq]
  congr 1
  funext terminal row
  rw [List.foldl_map]

theorem Ship.drawCalls_eq (ship : Ship) :
    ship.drawCalls
      = (List.range ship.body.length).flatMap fun row =>
          (List.range (ship.body.getD row []).length).map fun col =>
            (⟨ship.pos.getY + Int.ofNat row, ship.pos.getX + Int.ofNat col,
              (ship.body.getD row []).getD col ' '⟩ : Call) := by
  unfold Ship.drawCalls
  rw [Ship.drawWith_eq]
  exact (foldl_log_eq _ []).trans (List.nil_append _)

theorem Ship.clearCalls_eq (ship : Ship) :
    ship.clearCalls
      = (List.range ship.body.length).flatMap fun row =>
          (List.range (ship.body.getD row []).length).map fun col =>
            (⟨ship.pos.getY + Int.ofNat row, ship.pos.getX + Int.ofNat col, ' '⟩ : Call) := by
  unfold Ship.clearCalls
  rw [Ship.clearWith_eq]
  exact (foldl_log_eq _ []).trans (List.nil_append _)

/-- On the surface, `Ship::draw` is the effect of the calls it makes. -/
theorem Ship.draw_eq_apply (ship : Ship) (surface : Surface) :
    ship.draw surface = Surface.apply ship.drawCalls surface := by
  unfold Ship.draw Surface.apply
  rw [Ship.drawWith_eq, Ship.drawCalls_eq]

theorem Ship.clear_eq_apply (ship : Ship) (surface : Surface) :
    ship.clear surface = Surface.apply ship.clearCalls surface := by
  unfold Ship.clear Surface.apply
  rw [Ship.clearWith_eq, Ship.clearCalls_eq]

theorem Ship.drawCalls_cells (ship : Ship) :
    ship.drawCalls.map Call.cell = ship.footprint := by
  rw [Ship.drawCalls_eq]
  unfold Ship.footprint
  rw [List.map_flatMap]
  congr 1
  funext row
  rw [List.map_map]
  rfl

theorem Ship.clearCalls_cells (ship : Ship) :
    ship.clearCalls.map Call.cell = ship.footprint := by
  rw [Ship.clearCalls_eq]
  unfold Ship.footprint
  rw [List.map_flatMap]
  congr 1
  funext row
  rw [List.map_map]
  rfl

theorem Ship.clearCalls_blank (ship : Ship) : ∀ call ∈ ship.clearCalls, call.ch = ' ' := by
  intro call h
  rw [Ship.clearCalls_eq] at h
  simp only [List.mem_flatMap, List.mem_map] at h
  obtain ⟨row, _, col, _, rfl⟩ := h
  rfl

/-- At a given cell, a sequence of calls either shows a character that does
not depend on the surface it started from, or shows what that surface showed. -/
theorem Surface.apply_const_or_id (calls : List Call) (row col : Int) :
    (∃ ch, ∀ surface : Surface, Surface.apply calls surface row col = ch)
    ∨ (∀ surface : Surface, Surface.apply calls surface row col = surface row col) := by
  induction calls with
  | nil => exact Or.inr (fun _ => rfl)
  | cons call calls ih =>
    have step : ∀ surface : Surface, Surface.apply (call :: calls) surface
        = Surface.apply calls (mvaddch call.y call.x call.ch surface) := fun _ => rfl
    rcases ih with ⟨ch, h⟩ | h
    · exact Or.inl ⟨ch, fun surface => by rw [step, h]⟩
    · by_cases hc : row = call.y ∧ col = call.x
      · refine Or.inl ⟨call.ch, fun surface => ?_⟩
        rw [step, h]
        unfold mvaddch
        rw [if_pos hc]
      · refine Or.inr (fun surface => ?_)
        rw [step, h]
        unfold mvaddch
        rw [if_neg hc]

/-- A cell that no call addresses shows what it showed before. -/
theorem Surface.apply_of_not_mem (calls : List Call) (row col : Int) :
    (row, col) ∉ calls.map Call.cell →
    ∀ surface : Surface, Surface.apply calls surface row col = surface row col := by
  induction calls with
  | nil => intro _ surface; rfl
  | cons call calls ih =>
    intro hmem surface
    rw [List.map_cons, List.mem_cons, not_or] at hmem
    show Surface.apply calls (mvaddch call.y call.x call.ch surface) row col = _
    rw [ih hmem.2]
    unfold mvaddch
    rw [if_neg]
    rintro ⟨rfl, rfl⟩
    exact hmem.1 rfl

/-- A cell that some call addresses, when all calls write the same character,
shows that character. -/
theorem Surface.apply_of_mem (ch : Char) (calls : List Call) (row col : Int) :
    (∀ call ∈ calls, call.ch = ch) → (row, col) ∈ calls.map Call.cell →
    ∀ surface : Surface, Surface.apply calls surface row col = ch := by
  induction calls with
  | nil => intro _ hmem; simp at hmem
  | cons call calls ih =>
    intro hch hmem surface
    show Surface.apply calls (mvaddch call.y call.x call.ch surface) row col = _
    by_cases hin : (row, col) ∈ calls.map Call.cell
    · exact ih (fun c hc => hch c (List.mem_cons_of_mem _ hc)) hin _
    · rw [Surface.apply_of_not_mem calls row col hin]
      rw [List.map_cons, List.mem_cons] at hmem
      rcases hmem with h | h
      · unfold mvaddch
        have hy : row = call.y := congrArg Prod.fst h
        have hx : col = call.x := congrArg Prod.snd h
        rw [if_pos ⟨hy, hx⟩]
        exact hch call (List.mem_cons_self _ _)
      · exact absurd h hin

/-- C13: for every sprite and every surface, `draw` called twice leaves the
surface as `draw` called once leaves it. -/
theorem draw_twice_eq_draw_once (ship : Ship) (surface : Surface) :
    ship.draw (ship.draw surface) = ship.draw surface := by
  funext row col
  rw [Ship.draw_eq_apply, Ship.draw_eq_apply]
  rcases Surface.apply_const_or_id ship.drawCalls row col with ⟨ch, h⟩ | h
  · rw [h, h]
  · rw [h]

/-- C16: `clear` addresses the same cells as `draw`, in the same order, which
is the row-major order of the footprint (cell `(pos.y + row, pos.x + col)`
for each row of the body and each column of that row); after `draw` and then
`clear` every cell of the footprint shows a blank and every other cell shows
what it showed before the two calls. -/
theorem clear_visits_cells_of_draw (ship : Ship) :
    ship.clearCalls.map Call.cell = ship.drawCalls.map Call.cell
    ∧ ship.drawCalls.map Call.cell
        = ((List.range ship.body.length).flatMap fun row =>
            (List.range (ship.body.getD row []).length).map fun col =>
              (ship.getPosition.getY + Int.ofNat row, ship.getPosition.getX + Int.ofNat col))
    ∧ (∀ (surface : Surface) (row col : Int),
        ship.clear (ship.draw surface) row col
          = if (row, col) ∈ ship.drawCalls.map Call.cell then ' ' else surface row col) := by
  refine ⟨by rw [Ship.clearCalls_cells, Ship.drawCalls_cells], ?_, ?_⟩
  · rw [Ship.drawCalls_cells]
    rfl
  · intro surface row col
    rw [Ship.clear_eq_apply, Ship.draw_eq_apply]
    by_cases hmem : (row, col) ∈ ship.drawCalls.map Call.cell
    · rw [if_pos hmem]
      rw [Ship.drawCalls_cells, ← Ship.clearCalls_cells] at hmem
      exact Surface.apply_of_mem ' ' ship.clearCalls row col (Ship.clearCalls_blank ship) hmem _
    · rw [if_neg hmem]
      have hmem' : (row, col) ∉ ship.clearCalls.map Call.cell := by
        rw [Ship.clearCalls_cells, ← Ship.drawCalls_cells]
        exact hmem
      rw [Surface.apply_of_not_mem _ row col hmem', Surface.apply_of_not_mem _ row col hmem]

/-! ## Footprint of a sprite -/

theorem Ship.mem_footprint (ship : Ship) (y x : Int) :
    (y, x) ∈ ship.footprint ↔
      ∃ row, row < ship.body.length ∧ ∃ col, col < (ship.body.getD row []).length
        ∧ y = ship.pos.getY + Int.ofNat row ∧ x = ship.pos.getX + Int.ofNat col := by
  unfold Ship.footprint
  simp only [List.mem_flatMap, List.mem_map, List.mem_range, Prod.mk.injEq]
  constructor
  · rintro ⟨row, hrow, col, hcol, hy, hx⟩
    exact ⟨row, hrow, col, hcol, hy.symm, hx.symm⟩
  · rintro ⟨row, hrow, col, hcol, hy, hx⟩
    exact ⟨row, hrow, col, hcol, hy.symm, hx.symm⟩

theorem Ship.getWidth_cons (ship : Ship) (cells : List Char) (rest : List (List Char))
    (h : ship.body = cells :: rest) : ship.getWidth = .ok (cells.length : Int) := by
  unfold Ship.getWidth
  rw [h]
  simp

theorem Ship.getWidth_error_iff (ship : Ship) :
    ship.getWidth = .error .outOfRange ↔ ship.body = [] := by
  cases hb : ship.body with
  | nil =>
    unfold Ship.getWidth
    rw [hb]
    simp
  | cons cells rest =>
    rw [Ship.getWidth_cons ship cells rest hb]
    simp

/-- The cells of the footprint of a sprite whose rows all have length `width`
are the positions `pos + (j, k)` with `0 ≤ j < width` and `0 ≤ k < height`. -/
theorem Ship.mem_footprint_rect (ship : Ship) (width : Nat)
    (hrect : ∀ other ∈ ship.body, other.length = width) (p : Position) :
    (p.getY, p.getX) ∈ ship.footprint ↔
      ∃ j k : Int, 0 ≤ j ∧ j < (width : Int) ∧ 0 ≤ k ∧ k < ship.getHeight
        ∧ p = ship.getPosition.add ⟨j, k⟩ := by
  have hlen : ∀ row, row < ship.body.length → (ship.body.getD row []).length = width := by
    intro row hrow
    apply hrect
    rw [List.getD_eq_getElem _ _ hrow]
    exact List.getElem_mem _
  obtain ⟨px, py⟩ := p
  rw [Ship.mem_footprint]
  simp only [Ship.getHeight, Ship.getPosition, Position.add, Position.getX, Position.getY,
    Position.mk.injEq, Int.ofNat_eq_coe]
  constructor
  · rintro ⟨row, hrow, col, hcol, hy, hx⟩
    rw [hlen row hrow] at hcol
    exact ⟨(col : Int), (row : Int), by omega, by omega, by omega, by omega, hx, hy⟩
  · rintro ⟨j, k, hj0, hj, hk0, hk, hx, hy⟩
    refine ⟨k.toNat, by omega, j.toNat, ?_, by omega, by omega⟩
    rw [hlen k.toNat (by omega)]
    omega

/-- C19: for a sprite whose body has at least one row and whose rows are all
as long as the first, `getWidth()` returns the length of the first row, and
the cells that the collision check tests (a rock raises the flag exactly
when it is at `pos + (j, k)` with `0 ≤ j < getWidth()`, `0 ≤ k < getHeight()`)
are the cells that `draw` writes.  `getWidth()` fails with
`std::out_of_range` exactly when the body has no row, and `getHeight()` is
the number of rows for every body. -/
theorem collision_cells_eq_drawn_cells :
    (∀ (ship : Ship) (cells : List Char) (rest : List (List Char)),
      ship.body = cells :: rest → (∀ other ∈ ship.body, other.length = cells.length) →
      ∃ width : Int, ship.getWidth = .ok width
        ∧ (∀ rock : Rock,
            Game.collisionCells rock ship width ship.getHeight false = true ↔
              (rock.getPosition.getY, rock.getPosition.getX) ∈ ship.drawCalls.map Call.cell)
        ∧ (∀ p : Position,
            (∃ j k : Int, 0 ≤ j ∧ j < width ∧ 0 ≤ k ∧ k < ship.getHeight
              ∧ p = ship.getPosition.add ⟨j, k⟩) ↔
              (p.getY, p.getX) ∈ ship.drawCalls.map Call.cell))
    ∧ (∀ ship : Ship, ship.getWidth = .error .outOfRange ↔ ship.body = [])
    ∧ (∀ ship : Ship, ship.getHeight = (ship.body.length : Int)) := by
  refine ⟨?_, Ship.getWidth_error_iff, fun _ => rfl⟩
  intro ship cells rest hbody hrect
  refine ⟨(cells.length : Int), Ship.getWidth_cons ship cells rest hbody, ?_, ?_⟩
  · intro rock
    rw [Game.collisionCells_true_iff, Ship.drawCalls_cells,
      Ship.mem_footprint_rect ship cells.length hrect]
    simp
  · intro p
    rw [Ship.drawCalls_cells, Ship.mem_footprint_rect ship cells.length hrect]

theorem collision_cells_eq_drawn_cells_witness :
    ∃ width : Int,
      Ship.getWidth ⟨[['a', 'b'], ['c', 'd'], ['e', 'f']], ⟨5, 7⟩⟩ = .ok width
        ∧ (∀ rock : Rock,
            Game.collisionCells rock ⟨[['a', 'b'], ['c', 'd'], ['e', 'f']], ⟨5, 7⟩⟩ width
                (Ship.getHeight ⟨[['a', 'b'], ['c', 'd'], ['e', 'f']], ⟨5, 7⟩⟩) false = true ↔
              (rock.getPosition.getY, rock.getPosition.getX) ∈
                (Ship.drawCalls ⟨[['a', 'b'], ['c', 'd'], ['e', 'f']], ⟨5, 7⟩⟩).map Call.cell)
        ∧ (∀ p : Position,
            (∃ j k : Int, 0 ≤ j ∧ j < width ∧ 0 ≤ k
              ∧ k < Ship.getHeight ⟨[['a', 'b'], ['c', 'd'], ['e', 'f']], ⟨5, 7⟩⟩
              ∧ p = (Ship.getPosition ⟨[['a', 'b'], ['c', 'd'], ['e', 'f']], ⟨5, 7⟩⟩).add
                  ⟨j, k⟩) ↔
              (p.getY, p.getX) ∈
                (Ship.drawCalls ⟨[['a', 'b'], ['c', 'd'], ['e', 'f']], ⟨5, 7⟩⟩).map Call.cell) :=
  collision_cells_eq_drawn_cells.1 ⟨[['a', 'b'], ['c', 'd'], ['e', 'f']], ⟨5, 7⟩⟩
    ['a', 'b'] [['c', 'd'], ['e', 'f']] rfl (by decide)

/-! ## One pass of the loop of `updateScreen` -/

/-- Once the index is past the end, the loop of `updateScreen` is over. -/
theorem RockManager.updateLoop_of_ge (fuel i : Nat) (m : RockManager)
    (h : m.active_rocks.length ≤ i) : RockManager.updateLoop (fuel + 1) i m = .done m := by
  unfold RockManager.updateLoop
  rw [if_neg (by omega)]

theorem getElem?_append_cons_length {α : Type} (pre suf : List α) (a : α) :
    (pre ++ a :: suf)[pre.length]? = some a := by
  induction pre with
  | nil => simp
  | cons x pre ih => simpa using ih

theorem set_append_cons_length {α : Type} (pre suf : List α) (a a' : α) :
    (pre ++ a :: suf).set pre.length a' = pre ++ a' :: suf := by
  induction pre with
  | nil => rfl
  | cons x pre ih => simp

theorem eraseIdx_append_cons_length {α : Type} (pre suf : List α) (a : α) :
    (pre ++ a :: suf).eraseIdx pre.length = pre ++ suf := by
  induction pre with
  | nil => rfl
  | cons x pre ih => simpa using ih

/-- One iteration of the loop at the index of a rock inside the boundary. -/
theorem RockManager.updateLoop_inside (fuel : Nat) (b : Boundary) (pre suf : List Rock)
    (rock : Rock) (h : b.isInside rock.getPosition = true) :
    RockManager.updateLoop (fuel + 1) pre.length ⟨b, pre ++ rock :: suf⟩
      = RockManager.updateLoop fuel (pre.length + 1) ⟨b, pre ++ rock.moveDown 1 :: suf⟩ := by
  have hlt : pre.length < (pre ++ rock :: suf).length := by simp
  rw [RockManager.updateLoop]
  simp only [if_pos hlt, getElem?_append_cons_length, RockManager.moveRockDown,
    RockManager.getBoundary, h, if_true, set_append_cons_length]

/-- One iteration of the loop at the index of a rock outside the boundary. -/
theorem RockManager.updateLoop_outside (fuel : Nat) (b : Boundary) (pre suf : List Rock)
    (rock : Rock) (h : b.isInside rock.getPosition = false) :
    RockManager.updateLoop (fuel + 1) pre.length ⟨b, pre ++ rock :: suf⟩
      = RockManager.updateLoop fuel (pre.length + 1) ⟨b, pre ++ suf⟩ := by
  have hlt : pre.length < (pre ++ rock :: suf).length := by simp
  rw [RockManager.updateLoop]
  simp only [if_pos hlt, getElem?_append_cons_length, RockManager.moveRockDown,
    RockManager.getBoundary, h, Bool.false_eq_true, if_false, RockManager.removeRock,
    eraseIdx_append_cons_length]

/-- The loop of `updateScreen`, started at the end of `pre`, leaves `pre` as it
is and of the rest what the fates of its rocks leave. -/
theorem RockManager.updateLoop_eq_survivors (b : Boundary) (fuel : Nat) :
    ∀ pre suf : List Rock, suf.length < fuel →
      RockManager.updateLoop fuel pre.length ⟨b, pre ++ suf⟩
        = .done ⟨b, pre ++ survivors suf (fates b suf)⟩ := by
  induction fuel using Nat.strong_induction_on with
  | _ fuel ih =>
    intro pre suf hfuel
    match fuel, suf, hfuel with
    | fuel + 1, [], _ =>
      rw [RockManager.updateLoop_of_ge fuel _ _ (by simp)]
      simp [survivors, fates]
    | fuel + 2, [rock], _ =>
      by_cases h : b.isInside rock.getPosition = true
      · rw [RockManager.updateLoop_inside _ b pre [] rock h,
          RockManager.updateLoop_of_ge fuel _ _ (by simp)]
        simp [survivors, fates, h]
      · rw [Bool.not_eq_true] at h
        rw [RockManager.updateLoop_outside _ b pre [] rock h,
          RockManager.updateLoop_of_ge fuel _ _ (by simp)]
        simp [survivors, fates, h]
    | fuel + 1, rock :: next :: rest, hfuel =>
      by_cases h : b.isInside rock.getPosition = true
      · rw [RockManager.updateLoop_inside _ b pre _ rock h]
        have := ih fuel (by omega) (pre ++ [rock.moveDown 1]) (next :: rest)
          (by simp only [List.length_cons] at hfuel ⊢; omega)
        simp only [List.length_append, List.length_singleton, List.append_assoc,
          List.singleton_append] at this
        rw [this]
        simp [survivors, fates, h]
      · rw [Bool.not_eq_true] at h
        rw [RockManager.updateLoop_outside _ b pre _ rock h]
        have := ih fuel (by omega) (pre ++ [next]) rest
          (by simp only [List.length_cons] at hfuel; omega)
        simp only [List.length_append, List.length_singleton, List.append_assoc,
          List.singleton_append] at this
        rw [this]
        simp [survivors, fates, h]

theorem fates_length (b : Boundary) : ∀ rocks : List Rock, (fates b rocks).length = rocks.length
  | [] => rfl
  | [rock] => by
    unfold fates
    split <;> rfl
  | rock :: next :: rest => by
    unfold fates
    split
    · simp [fates_length b (next :: rest)]
    · simp [fates_length b rest]

/-- A rock is removed only when it is outside the boundary. -/
theorem fates_removed_outside (b : Boundary) :
    ∀ (rocks : List Rock) (i : Nat) (rock : Rock),
      (fates b rocks)[i]? = some .removed → rocks[i]? = some rock →
      b.isInside rock.getPosition = false
  | [], i, rock, _, hr => by simp at hr
  | [first], i, rock, hf, hr => by
    unfold fates at hf
    cases i with
    | zero =>
      simp only [List.getElem?_cons_zero, Option.some.injEq] at hr
      subst hr
      by_cases h : b.isInside first.getPosition = true
      · simp [h] at hf
      · simpa using h
    | succ i => simp at hr
  | first :: next :: rest, i, rock, hf, hr => by
    unfold fates at hf
    by_cases h : b.isInside first.getPosition = true
    · rw [if_pos h] at hf
      cases i with
      | zero => simp at hf
      | succ i =>
        simp only [List.getElem?_cons_succ] at hf hr
        exact fates_removed_outside b (next :: rest) i rock hf hr
    · rw [if_neg h] at hf
      cases i with
      | zero =>
        simp only [List.getElem?_cons_zero, Option.some.injEq] at hr
        subst hr
        simpa using h
      | succ i =>
        cases i with
        | zero => simp at hf
        | succ i =>
          simp only [List.getElem?_cons_succ] at hf hr
          exact fates_removed_outside b rest i rock hf hr

/-- The rock after a removed rock is skipped. -/
theorem fates_removed_then_skipped (b : Boundary) :
    ∀ (rocks : List Rock) (i : Nat),
      (fates b rocks)[i]? = some .removed → i + 1 < rocks.length →
      (fates b rocks)[i + 1]? = some .skipped
  | [], i, _, hlt => by simp at hlt
  | [first], i, _, hlt => by simp at hlt
  | first :: next :: rest, i, hf, hlt => by
    unfold fates at hf ⊢
    by_cases h : b.isInside first.getPosition = true
    · rw [if_pos h] at hf ⊢
      cases i with
      | zero => simp at hf
      | succ i =>
        simp only [List.getElem?_cons_succ] at hf ⊢
        exact fates_removed_then_skipped b (next :: rest) i hf
          (by simp only [List.length_cons] at hlt ⊢; omega)
    · rw [if_neg h] at hf ⊢
      cases i with
      | zero => simp
      | succ i =>
        cases i with
        | zero => simp at hf
        | succ i =>
          simp only [List.getElem?_cons_succ] at hf ⊢
          exact fates_removed_then_skipped b rest i hf
            (by simp only [List.length_cons] at hlt; omega)

/-- At most every other rock is removed. -/
theorem fates_count_removed (b : Boundary) :
    ∀ rocks : List Rock, (fates b rocks).count .removed ≤ (rocks.length + 1) / 2
  | [] => by simp [fates]
  | [rock] => by
    unfold fates
    split <;> simp
  | rock :: next :: rest => by
    unfold fates
    split
    · have := fates_count_removed b (next :: rest)
      simp only [List.length_cons] at this ⊢
      rw [List.count_cons_of_ne (by decide)]
      omega
    · have := fates_count_removed b rest
      simp only [List.length_cons]
      rw [List.count_cons_self, List.count_cons_of_ne (by decide)]
      omega

/-- The rocks that are left and the rocks that are removed make up the
collection. -/
theorem survivors_length (b : Boundary) :
    ∀ rocks : List Rock,
      (survivors rocks (fates b rocks)).length + (fates b rocks).count .removed = rocks.length
  | [] => by simp [fates, survivors]
  | [rock] => by
    unfold fates
    split <;> simp [survivors]
  | rock :: next :: rest => by
    unfold fates
    split
    · have := survivors_length b (next :: rest)
      simp only [List.length_cons] at this
      simp only [survivors, List.length_cons]
      rw [List.count_cons_of_ne (by decide)]
      omega
    · have := survivors_length b rest
      simp only [survivors, List.length_cons]
      rw [List.count_cons_self, List.count_cons_of_ne (by decide)]
      omega

/-- A skipped rock is left in the collection as it was. -/
theorem survivors_mem_of_skipped :
    ∀ (rocks : List Rock) (fs : List Fate) (i : Nat) (rock : Rock),
      fs[i]? = some .skipped → rocks[i]? = some rock → rock ∈ survivors rocks fs
  | [], _, i, rock, _, hr => by simp at hr
  | _ :: _, [], i, rock, hf, _ => by simp at hf
  | first :: rocks, f :: fs, i, rock, hf, hr => by
    cases i with
    | zero =>
      simp only [List.getElem?_cons_zero, Option.some.injEq] at hf hr
      subst hf hr
      simp [survivors]
    | succ i =>
      simp only [List.getElem?_cons_succ] at hf hr
      have := survivors_mem_of_skipped rocks fs i rock hf hr
      cases f <;> simp [survivors, this]

/-- A rock that is left was in the collection, or is a rock of the collection
that was inside the boundary, moved down by one. -/
theorem survivors_mem (b : Boundary) :
    ∀ (rocks : List Rock) (rock' : Rock), rock' ∈ survivors rocks (fates b rocks) →
      rock' ∈ rocks ∨
        ∃ rock ∈ rocks, b.isInside rock.getPosition = true ∧ rock' = rock.moveDown 1
  | [], rock', h => by simp [fates, survivors] at h
  | [rock], rock', h => by
    unfold fates at h
    by_cases hin : b.isInside rock.getPosition = true
    · rw [if_pos hin] at h
      simp only [survivors, List.mem_singleton] at h
      exact Or.inr ⟨rock, List.mem_singleton.mpr rfl, hin, h⟩
    · rw [if_neg hin] at h
      simp [survivors] at h
  | rock :: next :: rest, rock', h => by
    unfold fates at h
    by_cases hin : b.isInside rock.getPosition = true
    · rw [if_pos hin] at h
      simp only [survivors, List.mem_cons] at h
      rcases h with h | h
      · exact Or.inr ⟨rock, List.mem_cons_self _ _, hin, h⟩
      · rcases survivors_mem b (next :: rest) rock' h with h' | ⟨r, hr, hri, hre⟩
        · exact Or.inl (List.mem_cons_of_mem _ h')
        · exact Or.inr ⟨r, List.mem_cons_of_mem _ hr, hri, hre⟩
    · rw [if_neg hin] at h
      simp only [survivors, List.mem_cons] at h
      rcases h with h | h
      · exact Or.inl (by rw [h]; simp)
      · rcases survivors_mem b rest rock' h with h' | ⟨r, hr, hri, hre⟩
        · exact Or.inl (List.mem_cons_of_mem _ (List.mem_cons_of_mem _ h'))
        · exact Or.inr ⟨r, List.mem_cons_of_mem _ (List.mem_cons_of_mem _ hr), hri, hre⟩

/-- A tick, for a boundary of non-zero width: what the fates of the rocks
leave, and the new rock at the end. -/
theorem RockManager.updateScreen_eq_survivors (m : RockManager) (rand : Nat)
    (hw : m.boundary.getWidth ≠ 0) :
    m.updateScreen rand
      = .done ⟨m.boundary,
          survivors m.active_rocks (fates m.boundary m.active_rocks)
            ++ [⟨⟨[['O']], ⟨Int.tmod (rand : Int) m.boundary.getWidth, 0⟩⟩⟩]⟩ := by
  have h := RockManager.updateLoop_eq_survivors m.boundary (m.active_rocks.length + 1) []
    m.active_rocks (by omega)
  simp only [List.length_nil, List.nil_append] at h
  unfold RockManager.updateScreen
  rw [h]
  simp only [hw, if_false]

/-- C18: one pass of the loop of `updateScreen` over `n` rocks ends, and it
leaves of the collection what the fates of its rocks leave, where a rock is
removed only if it is outside the boundary and the rock after a removed rock
is skipped: it is not removed, and it is left in the collection as it was.
Hence at most `(n + 1) / 2` rocks are removed in one call. -/
theorem loop_never_removes_adjacent_rocks (m : RockManager) :
    ∃ m', RockManager.updateLoop (m.active_rocks.length + 1) 0 m = .done m'
      ∧ m'.boundary = m.boundary
      ∧ m'.active_rocks = survivors m.active_rocks (fates m.boundary m.active_rocks)
      ∧ (fates m.boundary m.active_rocks).length = m.active_rocks.length
      ∧ (∀ (i : Nat) (rock : Rock),
          (fates m.boundary m.active_rocks)[i]? = some .removed →
          m.active_rocks[i]? = some rock → m.boundary.isInside rock.getPosition = false)
      ∧ (∀ i : Nat,
          (fates m.boundary m.active_rocks)[i]? = some .removed →
          i + 1 < m.active_rocks.length →
          (fates m.boundary m.active_rocks)[i + 1]? = some .skipped)
      ∧ (∀ (i : Nat) (rock : Rock),
          (fates m.boundary m.active_rocks)[i]? = some .skipped →
          m.active_rocks[i]? = some rock → rock ∈ m'.active_rocks)
      ∧ (fates m.boundary m.active_rocks).count .removed ≤ (m.active_rocks.length + 1) / 2
      ∧ m'.active_rocks.length + (fates m.boundary m.active_rocks).count .removed
          = m.active_rocks.length
      ∧ (∀ rand : Nat, m.boundary.getWidth ≠ 0 →
          m.updateScreen rand
            = .done ⟨m.boundary, m'.active_rocks
                ++ [⟨⟨[['O']], ⟨Int.tmod (rand : Int) m.boundary.getWidth, 0⟩⟩⟩]⟩) := by
  have h := RockManager.updateLoop_eq_survivors m.boundary (m.active_rocks.length + 1) []
    m.active_rocks (by omega)
  simp only [List.length_nil, List.nil_append] at h
  refine ⟨_, h, rfl, rfl, fates_length _ _, fates_removed_outside _ _,
    fates_removed_then_skipped _ _, ?_, fates_count_removed _ _, survivors_length _ _, ?_⟩
  · intro i rock hf hr
    exact survivors_mem_of_skipped _ _ i rock hf hr
  · intro rand hw
    exact RockManager.updateScreen_eq_survivors m rand hw

theorem loop_never_removes_adjacent_rocks_witness :
    ∃ m', RockManager.updateLoop 4 0
        ⟨⟨0, 24, 0, 80⟩, [⟨⟨[['O']], ⟨3, 25⟩⟩⟩, ⟨⟨[['O']], ⟨7, 25⟩⟩⟩, ⟨⟨[['O']], ⟨1, 3⟩⟩⟩]⟩
          = .done m'
      ∧ (⟨⟨[['O']], ⟨7, 25⟩⟩⟩ : Rock) ∈ m'.active_rocks
      ∧ RockManager.updateScreen
          ⟨⟨0, 24, 0, 80⟩, [⟨⟨[['O']], ⟨3, 25⟩⟩⟩, ⟨⟨[['O']], ⟨7, 25⟩⟩⟩, ⟨⟨[['O']], ⟨1, 3⟩⟩⟩]⟩ 9
          = .done ⟨⟨0, 24, 0, 80⟩, m'.active_rocks ++ [⟨⟨[['O']], ⟨9, 0⟩⟩⟩]⟩ := by
  obtain ⟨m', hloop, _, _, _, _, _, hskip, _, _, htick⟩ :=
    loop_never_removes_adjacent_rocks
      ⟨⟨0, 24, 0, 80⟩, [⟨⟨[['O']], ⟨3, 25⟩⟩⟩, ⟨⟨[['O']], ⟨7, 25⟩⟩⟩, ⟨⟨[['O']], ⟨1, 3⟩⟩⟩]⟩
  exact ⟨m', hloop, hskip 1 _ (by decide) (by decide), htick 9 (by decide)⟩

/-! ## Reachable states of the rock manager -/

/-- A tick keeps the rocks of a manager for the boundary `(0, B, 0, R)` within
the columns `0 ≤ x < R` and the rows `0 ≤ y ≤ B + 1`, with the body of a
spawned rock, and leaves at least one rock. -/
theorem RockManager.updateScreen_keeps_bounds (B R : Int) (hR : 0 < R) (hB : 0 ≤ B)
    (rocks : List Rock) (rand : Nat)
    (hinv : ∀ rock ∈ rocks, 0 ≤ rock.getPosition.getX ∧ rock.getPosition.getX < R
      ∧ 0 ≤ rock.getPosition.getY ∧ rock.getPosition.getY ≤ B + 1 ∧ rock.body = [['O']]) :
    ∃ rocks' : List Rock,
      RockManager.updateScreen ⟨⟨0, B, 0, R⟩, rocks⟩ rand = .done ⟨⟨0, B, 0, R⟩, rocks'⟩
      ∧ rocks' ≠ []
      ∧ ∀ rock ∈ rocks', 0 ≤ rock.getPosition.getX ∧ rock.getPosition.getX < R
          ∧ 0 ≤ rock.getPosition.getY ∧ rock.getPosition.getY ≤ B + 1
          ∧ rock.body = [['O']] := by
  have hw : (⟨0, B, 0, R⟩ : Boundary).getWidth = R := by simp [Boundary.getWidth]
  refine ⟨_, RockManager.updateScreen_eq_survivors ⟨⟨0, B, 0, R⟩, rocks⟩ rand
    (by rw [hw]; omega), by simp, ?_⟩
  intro rock hmem
  rw [List.mem_append, List.mem_singleton] at hmem
  rcases hmem with hmem | rfl
  · rcases survivors_mem _ _ rock hmem with h | ⟨rock0, h0, hin, rfl⟩
    · exact hinv rock h
    · obtain ⟨hx0, hx, hy0, _, hbody⟩ := hinv rock0 h0
      rw [Boundary.isInside_iff] at hin
      have hy : rock0.getPosition.getY ≤ B := hin.2.2.2
      have hmove : (rock0.moveDown 1).getPosition.getY = rock0.getPosition.getY + 1 := rfl
      have hmx : (rock0.moveDown 1).getPosition.getX = rock0.getPosition.getX := rfl
      refine ⟨by omega, by omega, by omega, by omega, hbody⟩
  · have hpos : (0 : Int) < (⟨0, B, 0, R⟩ : Boundary).getWidth := by rw [hw]; exact hR
    refine ⟨Int.tmod_nonneg _ (Int.ofNat_nonneg rand), ?_, Int.le_refl 0, ?_, rfl⟩
    · have hlt := Int.tmod_lt_of_pos (rand : Int) hpos
      rw [hw] at hlt ⊢
      exact hlt
    · show (0 : Int) ≤ B + 1
      omega

theorem RockManager.runTicks_keeps_bounds (B R : Int) (hR : 0 < R) (hB : 0 ≤ B)
    (rands : List Nat) :
    ∀ rocks : List Rock,
      (∀ rock ∈ rocks, 0 ≤ rock.getPosition.getX ∧ rock.getPosition.getX < R
        ∧ 0 ≤ rock.getPosition.getY ∧ rock.getPosition.getY ≤ B + 1 ∧ rock.body = [['O']]) →
      ∃ rocks' : List Rock,
        RockManager.runTicks rands ⟨⟨0, B, 0, R⟩, rocks⟩ = .done ⟨⟨0, B, 0, R⟩, rocks'⟩
        ∧ ((rands ≠ [] ∨ rocks ≠ []) → rocks' ≠ [])
        ∧ ∀ rock ∈ rocks', 0 ≤ rock.getPosition.getX ∧ rock.getPosition.getX < R
            ∧ 0 ≤ rock.getPosition.getY ∧ rock.getPosition.getY ≤ B + 1
            ∧ rock.body = [['O']] := by
  induction rands with
  | nil =>
    intro rocks hinv
    exact ⟨rocks, rfl, fun h => h.elim (fun h' => absurd rfl h') id, hinv⟩
  | cons rand rest ih =>
    intro rocks hinv
    obtain ⟨rocks1, h1, hne1, hinv1⟩ :=
      RockManager.updateScreen_keeps_bounds B R hR hB rocks rand hinv
    obtain ⟨rocks2, h2, hne2, hinv2⟩ := ih rocks1 hinv1
    refine ⟨rocks2, ?_, fun _ => hne2 (Or.inr hne1), hinv2⟩
    rw [RockManager.runTicks, h1]
    exact h2

/-- C17: for the boundary `(top = 0, bottom = B, left = 0, right = R)` with
`R > 0` and `B ≥ 0`, any number of ticks of the empty manager, with any
random draws, return normally, and in the state they reach every rock has
`0 ≤ x < R`, `0 ≤ y ≤ B + 1` and the one-cell body `{{'O'}}`; after at least
one tick the collection is not empty. -/
theorem reachable_rocks_within_bounds (B R : Int) (hR : 0 < R) (hB : 0 ≤ B)
    (rands : List Nat) :
    ∃ m : RockManager, RockManager.runTicks rands ⟨⟨0, B, 0, R⟩, []⟩ = .done m
      ∧ m.getBoundary = ⟨0, B, 0, R⟩
      ∧ (∀ rock ∈ m.getRocks, 0 ≤ rock.getPosition.getX ∧ rock.getPosition.getX < R
          ∧ 0 ≤ rock.getPosition.getY ∧ rock.getPosition.getY ≤ B + 1
          ∧ rock.body = [['O']])
      ∧ (rands ≠ [] → m.getRocks ≠ []) := by
  obtain ⟨rocks', h, hne, hinv⟩ :=
    RockManager.runTicks_keeps_bounds B R hR hB rands [] (fun _ h => by simp at h)
  exact ⟨_, h, rfl, hinv, fun hr => hne (Or.inl hr)⟩

theorem reachable_rocks_within_bounds_witness :
    ∃ m : RockManager,
      RockManager.runTicks [3, 141, 59, 26, 535, 89, 79] ⟨⟨0, 2, 0, 80⟩, []⟩ = .done m
      ∧ m.getBoundary = ⟨0, 2, 0, 80⟩
      ∧ (∀ rock ∈ m.getRocks, 0 ≤ rock.getPosition.getX ∧ rock.getPosition.getX < 80
          ∧ 0 ≤ rock.getPosition.getY ∧ rock.getPosition.getY ≤ 2 + 1
          ∧ rock.body = [['O']])
      ∧ (([3, 141, 59, 26, 535, 89, 79] : List Nat) ≠ [] → m.getRocks ≠ []) :=
  reachable_rocks_within_bounds 2 80 (by decide) (by decide) [3, 141, 59, 26, 535, 89, 79]

end Spaceship
